import Mathlib

/-!
Verification of the hyprflow-ai-builder script-generation pipeline.

This file gives a shallow embedding, over `List Char`, of the text-processing
core of the repository:

* the document chunking loop of `supabase/functions/process-sop/index.ts`;
* the marker/fence/raw extraction pipeline of
  `supabase/functions/generate-script-rag/index.ts`;
* the run-configuration field detector and applier of
  `src/components/ChatInterface.tsx` (`extractRunConfigFields`,
  `buildConfiguredRunCode`);
* the retry loop of the generation client (`generate-script` edge function)
  and the job polling loop (`pollJob` in `ChatInterface.tsx`).

JavaScript strings are modelled as `List Char`; JavaScript regular
expressions used by the source are compiled by hand into deterministic
scanning functions, justified in the comments next to each definition.
-/

set_option maxHeartbeats 1000000

/-- Strings of the embedded programs: JavaScript strings as lists of chars. -/
abbrev Str := List Char

/-- JavaScript whitespace class `\s` (restricted to its ASCII part, which is
all that appears in the theorems below): space, tab, newline, carriage
return, vertical tab, form feed. -/
def jsWS (c : Char) : Bool :=
  c = ' ' || c = '\t' || c = '\n' || c = '\r' || c = '\x0b' || c = '\x0c'

/-- `String.prototype.trim()`, left part: drop leading whitespace. -/
def jsTrimL (s : Str) : Str := s.dropWhile jsWS

/-- `String.prototype.trim()`, right part: drop trailing whitespace. -/
def jsTrimR (s : Str) : Str := (s.reverse.dropWhile jsWS).reverse

/-- `String.prototype.trim()`. -/
def jsTrim (s : Str) : Str := jsTrimL (jsTrimR s)

/-- `String.prototype.indexOf(pat)`: index of the first occurrence of `pat`,
`none` when there is no occurrence (JS returns `-1`). -/
def idxOf : Str → Str → Option Nat
  | s, pat =>
    if pat.isPrefixOf s then some 0
    else
      match s with
      | [] => none
      | _ :: t => (idxOf t pat).map (· + 1)

/-- `String.prototype.substring(a, b)` with JavaScript's clamping and
argument-swapping semantics. -/
def jsSubstring (s : Str) (a b : Int) : Str :=
  let n : Int := s.length
  let a' := min (max a 0) n
  let b' := min (max b 0) n
  let lo := min a' b'
  let hi := max a' b'
  (s.take hi.toNat).drop lo.toNat

/--
The chunking loop of `process-sop/index.ts`:

    for (let i = 0; i < cleanedText.length; i += chunkSize - overlap) {
      const chunk = cleanedText.substring(i, i + chunkSize);
      if (chunk.trim()) { chunks.push(chunk); }
    }

modelled with an explicit iteration budget (`fuel`).  The source loop has no
termination guard, so the model returns `none` exactly when the budget is
exhausted with the loop still running; a `some` result is the chunk list the
loop produced.  Indices are integers because `chunkSize - overlap` can be
non-positive in JavaScript.
-/
def chunkFuel : Nat → Int → Str → Int → Int → Option (List Str)
  | 0, _, _, _, _ => none
  | fuel + 1, i, text, cs, ov =>
    if i < (text.length : Int) then
      let c := jsSubstring text i (i + cs)
      (chunkFuel fuel (i + (cs - ov)) text cs ov).map
        (fun r => if jsTrim c = [] then r else c :: r)
    else
      some []

/-- The chunker at the source's entry point: start at `i = 0` with an
iteration budget that suffices for every terminating configuration. -/
def jsChunks (text : Str) (cs ov : Int) : Option (List Str) :=
  chunkFuel (text.length + 1) 0 text cs ov

/-- Direct (fuel-free) form of the loop for a positive advance step
`s' + 1 = chunkSize - overlap`. -/
def chunksGo (cs s' : Nat) : Str → List Str
  | [] => []
  | a :: t =>
    let c := (a :: t).take cs
    let rest := chunksGo cs s' (t.drop s')
    if jsTrim c = [] then rest else c :: rest
  termination_by t => t.length
  decreasing_by
    simp only [List.length_drop, List.length_cons]
    omega

/-- Every window of the sliding loop has non-whitespace content, i.e. no
window is dropped by the loop's `if (chunk.trim())` filter (structurally
recursive on an iteration budget so that it evaluates by `decide`; the
budget `t.length` always suffices because each step consumes at least one
character). -/
def allKeptF (cs s' : Nat) : Nat → Str → Bool
  | _, [] => true
  | 0, _ :: _ => true
  | f + 1, a :: t => (¬ jsTrim ((a :: t).take cs) = []) && allKeptF cs s' f (t.drop s')

/-- See `allKeptF`. -/
def allKept (cs s' : Nat) (t : Str) : Bool := allKeptF cs s' t.length t

/-- Reconstruction described by the spec: concatenate the chunks in sequence
order, removing from every chunk after the first the `overlap` characters
it shares with its predecessor. -/
def recon (ov : Nat) : List Str → Str
  | [] => []
  | c :: rs => c ++ (rs.map (fun r => r.drop ov)).flatten

/- ### Basic lemmas about the chunking loop -/

theorem jsSubstring_eq_take_drop (s : Str) (k : Nat) (cs : Nat) (hk : k ≤ s.length) :
    jsSubstring s (k : Int) ((k : Int) + (cs : Int)) = (s.drop k).take cs := by
  unfold jsSubstring
  have hk' : ((k : Int)) ≤ (s.length : Int) := by exact_mod_cast hk
  have h0 : max (k : Int) 0 = (k : Int) := by omega
  have h1 : min (k : Int) (s.length : Int) = (k : Int) := by omega
  have h2 : max ((k : Int) + (cs : Int)) 0 = (k : Int) + (cs : Int) := by omega
  simp only [h0, h1, h2]
  have h3 : min (k : Int) (min ((k : Int) + (cs : Int)) (s.length : Int)) = (k : Int) := by
    omega
  have h4 : max (k : Int) (min ((k : Int) + (cs : Int)) (s.length : Int))
      = min ((k : Int) + (cs : Int)) (s.length : Int) := by omega
  simp only [h3, h4]
  have htoNat : ((k : Int)).toNat = k := by omega
  rw [htoNat]
  rcases le_or_lt ((k : Int) + (cs : Int)) (s.length : Int) with h | h
  · have hmin : min ((k : Int) + (cs : Int)) (s.length : Int) = (k : Int) + (cs : Int) := by
      omega
    rw [hmin]
    have hx : ((k : Int) + (cs : Int)).toNat = k + cs := by omega
    rw [hx]
    rw [List.drop_take]
    congr 1
    omega
  · have hmin : min ((k : Int) + (cs : Int)) (s.length : Int) = (s.length : Int) := by omega
    rw [hmin]
    have hx : ((s.length : Int)).toNat = s.length := by omega
    rw [hx, List.take_length]
    have h5 : (s.drop k).length ≤ cs := by
      simp only [List.length_drop]
      omega
    rw [List.take_of_length_le h5]

theorem chunkFuel_eq_go (cs ov : Nat) (hov : ov < cs) :
    ∀ (fuel k : Nat) (text : Str), text.length - k + 1 ≤ fuel →
      chunkFuel fuel (k : Int) text (cs : Int) (ov : Int)
        = some (chunksGo cs (cs - ov - 1) (text.drop k)) := by
  intro fuel
  induction fuel with
  | zero => intro k text h; omega
  | succ fuel ih =>
    intro k text h
    rw [chunkFuel]
    by_cases hk : (k : Int) < (text.length : Int)
    · have hklt : k < text.length := by exact_mod_cast hk
      have hsub : jsSubstring text (k : Int) ((k : Int) + (cs : Int)) = (text.drop k).take cs :=
        jsSubstring_eq_take_drop text k cs (le_of_lt hklt)
      have hnext : (k : Int) + ((cs : Int) - (ov : Int)) = ((k + (cs - ov) : Nat) : Int) := by
        omega
      rw [if_pos hk, hsub, hnext]
      rw [ih (k + (cs - ov)) text (by omega)]
      have hdrop : text.drop (k + (cs - ov)) = (text.drop k).drop (cs - ov) := by
        rw [List.drop_drop]
      have hne : text.drop k ≠ [] := by
        intro hnil
        have hlen := List.length_drop k text
        rw [hnil] at hlen
        simp only [List.length_nil] at hlen
        omega
      obtain ⟨a, t, hat⟩ := List.exists_cons_of_ne_nil hne
      rw [hdrop, hat]
      simp only [chunksGo]
      have hstep1 : (a :: t).drop (cs - ov) = t.drop (cs - ov - 1) := by
        rw [show cs - ov = (cs - ov - 1) + 1 from by omega]
        rfl
      rw [hstep1]
      by_cases htr : jsTrim ((a :: t).take cs) = []
      · simp [htr]
      · simp [htr]
    · have hge : text.length ≤ k := by
        by_contra hlt
        exact hk (by exact_mod_cast Nat.lt_of_not_le hlt)
      rw [if_neg hk]
      rw [List.drop_of_length_le hge]
      simp only [chunksGo]

/-- Core reconstruction lemma: past the first chunk, dropping the overlap
from each chunk and concatenating yields the tail of the text. -/
theorem recon_tail (cs ov : Nat) (hov : ov < cs) :
    ∀ (n : Nat) (t : Str), t.length ≤ n → allKeptF cs (cs - ov - 1) n t = true →
      ((chunksGo cs (cs - ov - 1) t).map (fun r => r.drop ov)).flatten = t.drop ov := by
  intro n
  induction n with
  | zero =>
    intro t hlen _
    have : t = [] := List.eq_nil_of_length_eq_zero (by omega)
    subst this
    simp only [chunksGo, List.map_nil, List.flatten_nil, List.drop_nil]
  | succ n ih =>
    intro t hlen hkept
    cases t with
    | nil => simp only [chunksGo, List.map_nil, List.flatten_nil, List.drop_nil]
    | cons a t =>
      simp only [allKeptF, Bool.and_eq_true, decide_eq_true_eq] at hkept
      simp only [chunksGo, if_neg hkept.1]
      simp only [List.map_cons, List.flatten_cons]
      have hlen' : (t.drop (cs - ov - 1)).length ≤ n := by
        simp only [List.length_drop]
        simp only [List.length_cons] at hlen
        omega
      rw [ih _ hlen' hkept.2]
      have hd1 : (t.drop (cs - ov - 1)).drop ov = (a :: t).drop cs := by
        rw [List.drop_drop]
        have hcs : (a :: t).drop cs = t.drop (cs - 1) := by
          rw [show cs = cs - 1 + 1 from by omega]
          rfl
        rw [hcs]
        congr 1
        omega
      rw [hd1]
      have hd2 : ((a :: t).take cs).drop ov = ((a :: t).drop ov).take (cs - ov) := by
        rw [List.drop_take]
      have hd3 : (a :: t).drop cs = ((a :: t).drop ov).drop (cs - ov) := by
        rw [List.drop_drop]
        congr 1
        omega
      rw [hd2, hd3]
      exact List.take_append_drop _ _

theorem recon_chunksGo (cs ov : Nat) (hov : ov < cs) (t : Str)
    (hkept : allKept cs (cs - ov - 1) t = true) :
    recon ov (chunksGo cs (cs - ov - 1) t) = t := by
  cases t with
  | nil => simp only [chunksGo, recon]
  | cons a t =>
    rw [allKept] at hkept
    simp only [List.length_cons, allKeptF, Bool.and_eq_true, decide_eq_true_eq] at hkept
    simp only [chunksGo, if_neg hkept.1]
    simp only [recon]
    rw [recon_tail cs ov hov t.length _ (by simp only [List.length_drop]; omega) hkept.2]
    rw [List.drop_drop]
    have hcs : (a :: t).drop cs = t.drop (cs - 1) := by
      rw [show cs = cs - 1 + 1 from by omega]
      rfl
    rw [show cs - ov - 1 + ov = cs - 1 from by omega]
    rw [← hcs]
    exact List.take_append_drop _ _

/- ### Claim C5: chunk reconstruction -/

/-- C5 (counterexample): the claim fails as stated when a whitespace-only
window is dropped.  For the normalized text `"a b"` with `chunkSize = 1`,
`overlap = 0` (a valid configuration, `0 ≤ overlap < chunkSize`), the loop
drops the middle window `" "` and reconstruction yields `"ab" ≠ "a b"`. -/
theorem C5_counterexample :
    (jsChunks (("a b").toList) 1 0).map (recon 0) = some (("ab").toList)
      ∧ ("ab").toList ≠ ("a b").toList := by
  constructor
  · decide
  · decide

/-- C5 (amended): for every text `T` and every configuration
`0 ≤ overlap < chunkSize` such that no window of the sliding loop is
whitespace-only (so the `if (chunk.trim())` filter drops nothing),
concatenating the produced chunks in sequence order and removing the
`overlap` characters duplicated between consecutive chunks reproduces `T`
exactly.  (When a whitespace-only window is dropped, its characters are
lost and reconstruction can fail, see `C5_counterexample`.) -/
theorem C5_chunk_reconstruction (text : Str) (cs ov : Nat) (hov : ov < cs)
    (hkept : allKept cs (cs - ov - 1) text = true) :
    (jsChunks text (cs : Int) (ov : Int)).map (recon ov) = some text := by
  unfold jsChunks
  rw [show (0 : Int) = ((0 : Nat) : Int) from rfl]
  rw [chunkFuel_eq_go cs ov hov (text.length + 1) 0 text (by omega)]
  rw [List.drop_zero]
  show some (recon ov (chunksGo cs (cs - ov - 1) text)) = some text
  rw [recon_chunksGo cs ov hov text hkept]

/-- C5 witness: the amended reconstruction theorem at a concrete input
(`"abcdef"`, chunkSize 3, overlap 1). -/
theorem C5_witness :
    (1 < 3 ∧ allKept 3 1 (("abcdef").toList) = true)
      ∧ (jsChunks (("abcdef").toList) 3 1).map (recon 1) = some (("abcdef").toList) :=
  ⟨⟨by omega, by decide⟩, C5_chunk_reconstruction (("abcdef").toList) 3 1 (by omega) (by decide)⟩

/- ### Claim C6: chunker configuration guard -/

/-- C6 (counterexample): the code does not reject `overlap ≥ chunkSize` as a
configuration error.  On the two-character text `"ab"` with
`chunkSize = 1, overlap = 1` the loop is still running after 60 iterations
(no error result, no chunk list), while a valid configuration
(`chunkSize = 2, overlap = 1`) terminates at once.  `chunkFuel … = none`
means only that the iteration budget was exhausted with the loop still
running: the model has no rejection path because the source has none. -/
theorem C6_counterexample :
    chunkFuel 60 0 (("ab").toList) 1 1 = none
      ∧ jsChunks (("ab").toList) 2 1 = some [("ab").toList, ("b").toList] := by
  constructor
  · decide
  · decide

/-- C6 (amended): the chunking loop has no guard for `overlap ≥ chunkSize`.
Such configurations are not rejected as errors; instead, on every nonempty
input the loop never terminates (for every iteration budget the loop is
still running), because the advance step `chunkSize - overlap` is
non-positive.  The shipped code avoids this only because it hard-codes
`chunkSize = 3000, overlap = 300`. -/
theorem C6_no_guard_diverges (text : Str) (cs ov : Int) (fuel : Nat)
    (hne : text ≠ []) (hbad : cs ≤ ov) :
    chunkFuel fuel 0 text cs ov = none := by
  suffices h : ∀ (f : Nat) (i : Int), i ≤ 0 → chunkFuel f i text cs ov = none by
    exact h fuel 0 le_rfl
  intro f
  induction f with
  | zero => intro i _; rfl
  | succ f ih =>
    intro i hi
    rw [chunkFuel]
    have hlen : 0 < text.length := List.length_pos.mpr hne
    have hlt : i < (text.length : Int) := by
      have : (0 : Int) < (text.length : Int) := by exact_mod_cast hlen
      omega
    rw [if_pos hlt]
    rw [ih (i + (cs - ov)) (by omega)]
    rfl

/-- C6 witness: the divergence theorem at a concrete input. -/
theorem C6_witness :
    (("ab").toList ≠ ([] : Str) ∧ (1 : Int) ≤ 1)
      ∧ chunkFuel 7 0 (("ab").toList) 1 1 = none :=
  ⟨⟨by decide, le_rfl⟩, C6_no_guard_diverges (("ab").toList) 1 1 7 (by decide) le_rfl⟩

/- ### Generation client retry loop (`src/unnamed/part_016`, generate-script) -/

/-- One upstream attempt outcome: an HTTP response (`ok` flag plus status
code, as JavaScript `fetch` exposes them) or a thrown network error. -/
inductive UpOutcome : Type
  | resp (ok : Bool) (status : Nat)
  | exc
deriving DecidableEq, Repr

/-- Result of the retry loop: the last assigned `response` variable (if
any), the number of fetch attempts issued, and the backoff delays (ms)
waited between attempts. -/
structure RetryResult where
  response : Option (Bool × Nat)
  attempts : Nat
  waits : List Nat
deriving DecidableEq, Repr

/--
The retry loop of the generation client:

    const maxRetries = 3;
    for (let attempt = 0; attempt < maxRetries; attempt++) {
      try {
        response = await fetch(...);
        if (response.ok || response.status !== 429) break;
        if (response.status === 429 && attempt < maxRetries - 1) {
          const waitTime = Math.pow(2, attempt) * 1000;
          await new Promise(...); continue;
        }
        lastError = await response.text();
      } catch (error) {
        lastError = error;
        if (attempt < maxRetries - 1) {
          const waitTime = Math.pow(2, attempt) * 1000;
          await new Promise(...); continue;
        }
      }
    }

`f` is the stream of upstream outcomes, indexed by attempt number;
`rem` is the number of loop iterations still allowed (`maxRetries - attempt`).
-/
def retryGo (f : Nat → UpOutcome) : Nat → Nat → Option (Bool × Nat) → List Nat → RetryResult
  | 0, attempt, resp, waits => ⟨resp, attempt, waits⟩
  | rem + 1, attempt, resp, waits =>
    match f attempt with
    | .resp ok st =>
      if (ok || (st != 429)) = true then ⟨some (ok, st), attempt + 1, waits⟩
      else if rem > 0 then
        retryGo f rem (attempt + 1) (some (ok, st)) (waits ++ [2 ^ attempt * 1000])
      else ⟨some (ok, st), attempt + 1, waits⟩
    | .exc =>
      if rem > 0 then retryGo f rem (attempt + 1) resp (waits ++ [2 ^ attempt * 1000])
      else ⟨resp, attempt + 1, waits⟩

/-- The retry loop with `maxRetries = 3`, starting at attempt 0. -/
def retryLoop (f : Nat → UpOutcome) : RetryResult := retryGo f 3 0 none []

/- ### Claim C9: generation-client retry policy -/

/-- C9 (counterexample): the claim fails as stated because thrown fetch
errors — non-rate-limit failures — are retried.  With an upstream that
throws on the first attempt and succeeds on the second, the loop issues two
attempts (waiting 1000 ms in between) instead of surfacing the failure
after the first attempt. -/
theorem C9_counterexample :
    retryLoop (fun i => if i = 0 then UpOutcome.exc else UpOutcome.resp true 200)
      = ⟨some (true, 200), 2, [1000]⟩ := by
  decide

/-- With one remaining iteration the loop issues exactly one more attempt
and waits no further, whatever the outcome. -/
theorem retryGo_one (f : Nat → UpOutcome) (a : Nat) (r : Option (Bool × Nat)) (w : List Nat) :
    (retryGo f 1 a r w).attempts = a + 1 ∧ (retryGo f 1 a r w).waits = w := by
  cases hfa : f a with
  | resp ok st =>
    by_cases hb : (ok || (st != 429)) = true
    · simp [retryGo, hfa, hb]
    · simp [retryGo, hfa, hb]
  | exc => simp [retryGo, hfa]

/-- A 429 error response or a thrown error is retried (when iterations
remain): the loop moves to the next attempt after recording the backoff
delay `2^attempt * 1000` ms. -/
theorem retryGo_step_retry (f : Nat → UpOutcome) (rem a : Nat)
    (r : Option (Bool × Nat)) (w : List Nat) (hrem : 0 < rem)
    (h : f a = UpOutcome.resp false 429 ∨ f a = UpOutcome.exc) :
    ∃ r', retryGo f (rem + 1) a r w = retryGo f rem (a + 1) r' (w ++ [2 ^ a * 1000]) := by
  rcases h with h | h
  · exact ⟨some (false, 429), by simp [retryGo, h, hrem]⟩
  · exact ⟨r, by simp [retryGo, h, hrem]⟩

/-- C9 (amended): the client retries rate-limited (HTTP 429) responses and
thrown fetch errors, waiting an exponentially doubling backoff delay
(1000 ms, then 2000 ms) between attempts, up to 3 attempts; every non-429
HTTP response — success or failure — ends the loop immediately after the
attempt that received it, so non-rate-limit HTTP *responses* are surfaced
after the first attempt without retry (but thrown network errors, also
non-rate-limit failures, are retried — see `C9_counterexample`).
Precisely: (1) a non-429 first response ends the loop with one attempt and
no waits; (2) attempt `i + 1` is issued only when attempt `i` got a 429
error response or threw; (3) the waits are exactly `2^k * 1000` for
`k < attempts - 1`; (4) between 1 and 3 attempts are made. -/
theorem C9_retry_policy (f : Nat → UpOutcome) :
    (∀ ok st, f 0 = UpOutcome.resp ok st → (ok || (st != 429)) = true →
        retryLoop f = ⟨some (ok, st), 1, []⟩)
    ∧ (∀ i, i + 1 < (retryLoop f).attempts →
        f i = UpOutcome.exc ∨ f i = UpOutcome.resp false 429)
    ∧ (retryLoop f).waits
        = (List.range ((retryLoop f).attempts - 1)).map (fun k => 2 ^ k * 1000)
    ∧ 1 ≤ (retryLoop f).attempts ∧ (retryLoop f).attempts ≤ 3 := by
  have hcase : ∀ o : UpOutcome,
      (∃ ok st, o = UpOutcome.resp ok st ∧ (ok || (st != 429)) = true)
        ∨ (o = UpOutcome.resp false 429 ∨ o = UpOutcome.exc) := by
    intro o
    cases o with
    | exc => exact Or.inr (Or.inr rfl)
    | resp ok st =>
      by_cases hb : (ok || (st != 429)) = true
      · exact Or.inl ⟨ok, st, rfl, hb⟩
      · refine Or.inr (Or.inl ?_)
        simp only [Bool.or_eq_true, bne_iff_ne, not_or, Bool.not_eq_true] at hb
        rw [hb.1]
        have hst : st = 429 := by
          rcases hb with ⟨_, hb2⟩
          by_contra hne
          exact hb2 hne
        rw [hst]
  rcases hcase (f 0) with ⟨ok0, st0, hf0, hb0⟩ | hf0
  · -- the first attempt ends the loop
    have hres : retryLoop f = ⟨some (ok0, st0), 1, []⟩ := by
      unfold retryLoop
      simp [retryGo, hf0, hb0]
    have hA : (retryLoop f).attempts = 1 := by rw [hres]
    have hW : (retryLoop f).waits = [] := by rw [hres]
    refine ⟨?_, ?_, ?_, ?_, ?_⟩
    · intro ok st h0 _
      rw [hf0] at h0
      injection h0 with h1 h2
      rw [← h1, ← h2]
      exact hres
    · intro i hi; rw [hA] at hi; omega
    · rw [hA, hW]; rfl
    · omega
    · omega
  · -- the first attempt is retried
    obtain ⟨r1, hstep1⟩ := retryGo_step_retry f 2 0 none [] (by omega) hf0
    have hloop1 : retryLoop f = retryGo f 2 1 r1 [1000] := hstep1
    have hnot1 : ∀ ok st, f 0 = UpOutcome.resp ok st → ¬ (ok || (st != 429)) = true := by
      intro ok st h0
      rcases hf0 with h | h
      · rw [h] at h0
        injection h0 with h1 h2
        rw [← h1, ← h2]
        decide
      · rw [h] at h0
        exact absurd h0 (by simp)
    rcases hcase (f 1) with ⟨ok1, st1, hf1, hb1⟩ | hf1
    · -- the second attempt ends the loop
      have hres : retryLoop f = ⟨some (ok1, st1), 2, [1000]⟩ := by
        rw [hloop1]
        simp [retryGo, hf1, hb1]
      have hA : (retryLoop f).attempts = 2 := by rw [hres]
      have hW : (retryLoop f).waits = [1000] := by rw [hres]
      refine ⟨?_, ?_, ?_, ?_, ?_⟩
      · intro ok st h0 hb
        exact absurd hb (hnot1 ok st h0)
      · intro i hi
        rw [hA] at hi
        have hi0 : i = 0 := by omega
        rw [hi0]
        rcases hf0 with h | h
        · exact Or.inr h
        · exact Or.inl h
      · rw [hA, hW]; rfl
      · omega
      · omega
    · -- the second attempt is retried; the third always ends the loop
      obtain ⟨r2, hstep2⟩ := retryGo_step_retry f 1 1 r1 [1000] (by omega) hf1
      have hloop2 : retryLoop f = retryGo f 1 2 r2 [1000, 2000] := by
        rw [hloop1]
        exact hstep2
      obtain ⟨hA', hW'⟩ := retryGo_one f 2 r2 [1000, 2000]
      have hA : (retryLoop f).attempts = 3 := by rw [hloop2]; exact hA'
      have hW : (retryLoop f).waits = [1000, 2000] := by rw [hloop2]; exact hW'
      refine ⟨?_, ?_, ?_, ?_, ?_⟩
      · intro ok st h0 hb
        exact absurd hb (hnot1 ok st h0)
      · intro i hi
        rw [hA] at hi
        have hi01 : i = 0 ∨ i = 1 := by omega
        rcases hi01 with hi0 | hi1
        · rw [hi0]
          rcases hf0 with h | h
          · exact Or.inr h
          · exact Or.inl h
        · rw [hi1]
          rcases hf1 with h | h
          · exact Or.inr h
          · exact Or.inl h
      · rw [hA, hW]; rfl
      · omega
      · omega

/-- C9 witness: the amended retry-policy theorem applied to a concrete
upstream that returns a 500 error on the first attempt: it is surfaced
immediately, with one attempt and no backoff waits. -/
theorem C9_witness :
    ((fun _ : Nat => UpOutcome.resp false 500) 0 = UpOutcome.resp false 500
        ∧ ((false : Bool) || ((500 : Nat) != 429)) = true)
      ∧ retryLoop (fun _ => UpOutcome.resp false 500) = ⟨some (false, 500), 1, []⟩ :=
  ⟨⟨rfl, by decide⟩,
    (C9_retry_policy (fun _ => UpOutcome.resp false 500)).1 false 500 rfl (by decide)⟩

/- ### Job polling loop (`pollJob` in `src/components/ChatInterface.tsx`) -/

/-- One poll response: a query error (`jobError`), or a row of the
`automation_jobs` table with the fields the loop reads (`status`, the
chained log text `log_output ?? logs ?? stdout ?? output_text ?? ""`,
`error_message` with `""` for a missing value — the source tests it with
the falsy `||` — and the optional screenshot URL). -/
inductive JobResp : Type
  | err
  | ok (status : Str) (log : Str) (errMsg : Str) (screenshot : Option Str)
deriving DecidableEq

/-- Outcome of the polling loop, per the four `setRunOutput` call sites. -/
inductive PollResult : Type
  | timeout
  | pollErr
  | completedOut (stdout : Str)
  | failedOut (stdout : Str) (error : Str)
deriving DecidableEq

/-- A run of the polling loop: its outcome, the number of job queries
issued, and the waits (ms) inserted between successive queries. -/
structure PollRun where
  result : PollResult
  polls : Nat
  delays : List Nat
deriving DecidableEq

def qStr : Str := ("queued").toList
def rStr : Str := ("running").toList
def cStr : Str := ("completed").toList
def completedMsg : Str := ("Cloud job completed successfully.").toList
def failMsgFor (st : Str) : Str := ("Cloud job failed with status: ").toList ++ st

/--
The recursive poll loop

    const pollJob = async (attempt = 0): Promise<void> => {
      if (attempt > 150) { ...timeout...; return; }
      const { data: job, error: jobError } = await supabase.from("automation_jobs")...
      if (jobError) { ...return; }
      ...
      if (status === "queued" || status === "running") {
        await new Promise((resolve) => setTimeout(resolve, 2000));
        return pollJob(attempt + 1);
      }
      if (status === "completed") { ... } else { ... }
    };

modelled structurally on the remaining attempt budget `rem = 151 - attempt`
(the source's guard `attempt > 150` is exactly `rem = 0`), over a stream
`f` of poll responses indexed by attempt number. -/
def pollGoF (f : Nat → JobResp) : Nat → Nat → PollRun
  | 0, _ => ⟨.timeout, 0, []⟩
  | rem + 1, attempt =>
    match f attempt with
    | .err => ⟨.pollErr, 1, []⟩
    | .ok st log errMsg _ =>
      if st = qStr ∨ st = rStr then
        let p := pollGoF f rem (attempt + 1)
        ⟨p.result, p.polls + 1, 2000 :: p.delays⟩
      else if st = cStr then
        ⟨.completedOut (if log = [] then completedMsg else log), 1, []⟩
      else
        ⟨.failedOut log (if errMsg = [] then failMsgFor st else errMsg), 1, []⟩

/-- The poll loop at its entry point `pollJob()` (attempt 0, bound 150). -/
def pollJob (f : Nat → JobResp) : PollRun := pollGoF f 151 0

/-- A response that keeps the loop polling: status `queued` or `running`. -/
def isPending : JobResp → Bool
  | .ok st _ _ _ => st = qStr || st = rStr
  | _ => false

/-- How the loop reports a response that stops it. -/
def terminalRes : JobResp → PollResult
  | .err => .pollErr
  | .ok st log errMsg _ =>
    if st = cStr then .completedOut (if log = [] then completedMsg else log)
    else .failedOut log (if errMsg = [] then failMsgFor st else errMsg)

theorem pollGoF_reach (f : Nat → JobResp) :
    ∀ (k rem a : Nat), k < rem →
      (∀ j, j < k → isPending (f (a + j)) = true) →
      isPending (f (a + k)) = false →
      pollGoF f rem a = ⟨terminalRes (f (a + k)), k + 1, List.replicate k 2000⟩ := by
  intro k
  induction k with
  | zero =>
    intro rem a hrem hpre hstop
    obtain ⟨rem', hrem'⟩ := Nat.exists_eq_succ_of_ne_zero (by omega : rem ≠ 0)
    subst hrem'
    rw [Nat.add_zero] at hstop
    cases hfa : f a with
    | err => simp [pollGoF, hfa, terminalRes]
    | ok st log errMsg scr =>
      rw [hfa] at hstop
      simp only [isPending, Bool.or_eq_false_iff, decide_eq_false_iff_not] at hstop
      simp only [pollGoF, Nat.add_zero, hfa, terminalRes]
      rw [if_neg (by tauto : ¬(st = qStr ∨ st = rStr))]
      split <;> rfl
  | succ k ih =>
    intro rem a hrem hpre hstop
    obtain ⟨rem', hrem'⟩ := Nat.exists_eq_succ_of_ne_zero (by omega : rem ≠ 0)
    subst hrem'
    have hp0 : isPending (f a) = true := by
      have := hpre 0 (by omega)
      rw [Nat.add_zero] at this
      exact this
    cases hfa : f a with
    | err => rw [hfa] at hp0; simp [isPending] at hp0
    | ok st log errMsg scr =>
      rw [hfa] at hp0
      simp only [isPending, Bool.or_eq_true, decide_eq_true_eq] at hp0
      have hrec := ih rem' (a + 1) (by omega)
        (fun j hj => by
          have := hpre (j + 1) (by omega)
          rw [show a + (j + 1) = a + 1 + j from by omega] at this
          exact this)
        (by rw [show a + 1 + k = a + (k + 1) from by omega]; exact hstop)
      simp only [pollGoF, hfa, if_pos hp0, hrec]
      rw [show a + 1 + k = a + (k + 1) from by omega]
      simp [List.replicate_succ]

theorem pollGoF_timeout (f : Nat → JobResp) :
    ∀ (rem a : Nat), (∀ j, j < rem → isPending (f (a + j)) = true) →
      pollGoF f rem a = ⟨.timeout, rem, List.replicate rem 2000⟩ := by
  intro rem
  induction rem with
  | zero => intro a _; simp [pollGoF]
  | succ rem ih =>
    intro a hpre
    have hp0 : isPending (f a) = true := by
      have := hpre 0 (by omega)
      rw [Nat.add_zero] at this
      exact this
    cases hfa : f a with
    | err => rw [hfa] at hp0; simp [isPending] at hp0
    | ok st log errMsg scr =>
      rw [hfa] at hp0
      simp only [isPending, Bool.or_eq_true, decide_eq_true_eq] at hp0
      have hrec := ih (a + 1)
        (fun j hj => by
          have := hpre (j + 1) (by omega)
          rw [show a + (j + 1) = a + 1 + j from by omega] at this
          exact this)
      simp only [pollGoF, hfa, if_pos hp0, hrec]
      simp [List.replicate_succ]

theorem pollGoF_bounds (f : Nat → JobResp) :
    ∀ (rem a : Nat), (pollGoF f rem a).polls ≤ rem
      ∧ (pollGoF f rem a).delays.all (fun d => d = 2000) = true := by
  intro rem
  induction rem with
  | zero => intro a; simp [pollGoF]
  | succ rem ih =>
    intro a
    cases hfa : f a with
    | err => simp [pollGoF, hfa]
    | ok st log errMsg scr =>
      by_cases hp : st = qStr ∨ st = rStr
      · have hih := ih (a + 1)
        simp only [pollGoF, hfa, if_pos hp]
        exact ⟨Nat.succ_le_succ hih.1, hih.2⟩
      · simp only [pollGoF, hfa, if_neg hp]
        split
        · exact ⟨Nat.succ_le_succ (Nat.zero_le rem), rfl⟩
        · exact ⟨Nat.succ_le_succ (Nat.zero_le rem), rfl⟩

/- ### Claim C10: poll-loop boundedness and sticky terminal states -/

/-- C10: for every stream of job-status responses, the polling loop
(1) issues at most 151 job queries in total;
(2) if the first non-pending response arrives at attempt `k ≤ 150` (all
earlier responses have status `queued`/`running`), the loop stops with
exactly `k + 1` queries — no poll is ever issued after a terminal
response — reporting `completed`/`failed` per `terminalRes`, after waiting
2000 ms between successive polls;
(3) if every response up to attempt 150 is still pending, the loop stops
and reports a timeout after exactly 151 queries;
(4) the timeout outcome is distinct from every remote-reported failure
outcome; and (5) every wait between polls is exactly 2000 ms.
The loop only ever reads the job row (a `select` query); it performs no
write to the remote job. -/
theorem C10_poll_loop (f : Nat → JobResp) :
    (pollJob f).polls ≤ 151
    ∧ (∀ k, k ≤ 150 →
        (∀ j, j < k → isPending (f j) = true) →
        isPending (f k) = false →
        pollJob f = ⟨terminalRes (f k), k + 1, List.replicate k 2000⟩)
    ∧ ((∀ j, j ≤ 150 → isPending (f j) = true) →
        pollJob f = ⟨.timeout, 151, List.replicate 151 2000⟩)
    ∧ (∀ l e, PollResult.timeout ≠ PollResult.failedOut l e)
    ∧ (pollJob f).delays.all (fun d => d = 2000) = true := by
  refine ⟨(pollGoF_bounds f 151 0).1, ?_, ?_, ?_, (pollGoF_bounds f 151 0).2⟩
  · intro k hk hpre hstop
    have h := pollGoF_reach f k 151 0 (by omega)
      (fun j hj => by rw [Nat.zero_add]; exact hpre j hj)
      (by rw [Nat.zero_add]; exact hstop)
    rw [Nat.zero_add] at h
    exact h
  · intro hpre
    exact pollGoF_timeout f 151 0 (fun j hj => by rw [Nat.zero_add]; exact hpre j (by omega))
  · intro l e h
    exact PollResult.noConfusion h

/-- C10 witness: scenario D — `queued` twice, then `completed` with a log:
the loop stops after exactly 3 polls with the log surfaced verbatim. -/
theorem C10_witness :
    ((2 : Nat) ≤ 150
      ∧ (∀ j, j < 2 → isPending ((fun n => if n < 2
            then JobResp.ok qStr [] [] none
            else JobResp.ok cStr (("done").toList) [] none) j) = true)
      ∧ isPending ((fun n : Nat => if n < 2
            then JobResp.ok qStr [] [] none
            else JobResp.ok cStr (("done").toList) [] none) 2) = false)
    ∧ pollJob (fun n => if n < 2
          then JobResp.ok qStr [] [] none
          else JobResp.ok cStr (("done").toList) [] none)
        = ⟨PollResult.completedOut (("done").toList), 3, [2000, 2000]⟩ := by
  refine ⟨⟨by omega, by decide, by decide⟩, ?_⟩
  have h := (C10_poll_loop (fun n => if n < 2
      then JobResp.ok qStr [] [] none
      else JobResp.ok cStr (("done").toList) [] none)).2.1 2 (by omega) (by decide) (by decide)
  rw [h]
  decide

/- ### Script extraction (`generate-script-rag/index.ts`) -/

/-- Characters matched by `[a-zA-Z0-9_\-]` (the fence language tag). -/
def isTagChar (c : Char) : Bool := c.isAlpha || c.isDigit || c = '_' || c = '-'

def fenceTok : Str := ("```").toList
def tripleEq : Str := ("===").toList
def selOpen : Str := ("=== PYTHON_SELENIUM_SCRIPT ===").toList
def selClose : Str := ("=== END_PYTHON_SELENIUM_SCRIPT ===").toList
def pwOpen : Str := ("=== PYTHON_PLAYWRIGHT_SCRIPT ===").toList
def pwClose : Str := ("=== END_PYTHON_PLAYWRIGHT_SCRIPT ===").toList

/-- `(l.dropWhile p).length ≤ l.length`. -/
theorem dropWhile_shorter (p : Char → Bool) (l : Str) : (l.dropWhile p).length ≤ l.length := by
  induction l with
  | nil => simp
  | cons a t ih =>
    rw [List.dropWhile_cons]
    split
    · exact Nat.le_trans ih (Nat.le_succ _)
    · exact Nat.le_refl _

/--
First replacement of `stripCodeFences`:
`cleaned.replace(/^```[a-zA-Z0-9_\-]*\s*\n?/gm, "")`.

The regex matches, at each line start of the original string, a fence token
followed by the (greedy, hence maximal) run of tag characters and the
(greedy, hence maximal) run of whitespace — the trailing `\n?` is subsumed
by the greedy `\s*`.  Each maximal element is forced because the element
after it cannot match its class.  The scan carries `atLS`, whether the
current position is a line start (position 0 or preceded by `'\n'`); after
a removal, the resumption point is a line start exactly when the last
whitespace character consumed was a newline. -/
theorem rep1Shorter (c : Char) (t : Str) :
    ((((c :: t).drop 3).dropWhile isTagChar).dropWhile jsWS).length < (c :: t).length := by
  have h1 := dropWhile_shorter isTagChar ((c :: t).drop 3)
  have h2 := dropWhile_shorter jsWS (((c :: t).drop 3).dropWhile isTagChar)
  simp only [List.length_drop, List.length_cons] at h1 h2 ⊢
  omega

/-- See the doc comment above `rep1Shorter`. -/
def rep1 : Bool → Str → Str
  | _, [] => []
  | atLS, c :: t =>
    if atLS && fenceTok.isPrefixOf (c :: t) then
      rep1 (((((c :: t).drop 3).dropWhile isTagChar).takeWhile jsWS).getLast? == some '\n')
        ((((c :: t).drop 3).dropWhile isTagChar).dropWhile jsWS)
    else c :: rep1 (c == '\n') t
  termination_by _ s => s.length
  decreasing_by
    all_goals simp only [List.length_cons]
    all_goals try omega
    all_goals exact rep1Shorter _ _

/-- Index of the last occurrence of a character (`lastIndexOf`). -/
def lastIdxOf : Str → Char → Option Nat
  | [], _ => none
  | c :: t, q =>
    match lastIdxOf t q with
    | some j => some (j + 1)
    | none => if c == q then some 0 else none

/--
Second replacement of `stripCodeFences`: `cleaned.replace(/```\s*$/gm, "")`.

A match at a fence token consumes the greedy-maximal whitespace run after
it when that run reaches the end of the string (`$` at end); otherwise the
greedy `\s*` backtracks to the last newline inside the run (`$` before a
`'\n'` in multiline mode), leaving that newline in place; if the run
contains no newline and does not reach the end there is no match there. -/
def rep2 : Str → Str
  | [] => []
  | c :: t =>
    if fenceTok.isPrefixOf (c :: t) then
      if (((c :: t).drop 3).takeWhile jsWS).length = ((c :: t).drop 3).length then []
      else
        match lastIdxOf (((c :: t).drop 3).takeWhile jsWS) '\n' with
        | some k => rep2 (((c :: t).drop 3).drop k)
        | none => c :: rep2 t
    else c :: rep2 t
  termination_by s => s.length
  decreasing_by
    all_goals simp only [List.length_drop, List.length_cons]
    all_goals omega

/--
Third replacement of `stripCodeFences`: `cleaned.replace(/^```\s*$/gm, "")`:
as `rep2` but anchored at line starts. -/
def rep3 : Bool → Str → Str
  | _, [] => []
  | atLS, c :: t =>
    if atLS && fenceTok.isPrefixOf (c :: t) then
      if (((c :: t).drop 3).takeWhile jsWS).length = ((c :: t).drop 3).length then []
      else
        match lastIdxOf (((c :: t).drop 3).takeWhile jsWS) '\n' with
        | some k =>
          rep3 (((((c :: t).drop 3).takeWhile jsWS).take k).getLast? == some '\n')
            (((c :: t).drop 3).drop k)
        | none => c :: rep3 (c == '\n') t
    else c :: rep3 (c == '\n') t
  termination_by _ s => s.length
  decreasing_by
    all_goals simp only [List.length_drop, List.length_cons]
    all_goals omega

/-- The three regex passes of `stripCodeFences` between its two trims. -/
def stripPasses (s : Str) : Str := jsTrim (rep3 true (rep2 (rep1 true (jsTrim s))))

/-- `stripCodeFences(code)`: `null` passes through, and so does the empty
string (the `if (!code) return code;` guard tests JavaScript falsiness). -/
def stripCF : Option Str → Option Str
  | none => none
  | some s => if s = [] then some [] else some (stripPasses s)

/--
`extractBetweenMarkers(source, startMarker, endMarker)`: find the first
occurrence of the start marker; slice from after it up to the next
occurrence of the end marker, or to the end of the text when the end
marker is absent; trim the slice. -/
def extractBetweenMarkers (source st en : Str) : Option Str :=
  match idxOf source st with
  | none => none
  | some i =>
    let rest := source.drop (i + st.length)
    match idxOf rest en with
    | none => some (jsTrim rest)
    | some j => some (jsTrim (rest.take j))

/-- Case-insensitive literal prefix test (`pat` given in lower case). -/
def ciPre (pat s : Str) : Bool := (s.take pat.length).map Char.toLower == pat

/--
`generatedContent.match(/```(?:python|py)?[\s\S]*?```/gi)`: the list of
fenced blocks, in order.  At a fence token the alternation tries `python`,
then `py`, then nothing (case-insensitively); the lazy `[\s\S]*?` then
reaches to the nearest following fence token.  If no closing token
follows, no match can start at this position and scanning advances. -/
def fenceTag (afterO : Str) : Nat :=
  if ciPre (("python").toList) afterO then 6
  else if ciPre (("py").toList) afterO then 2 else 0

/-- See the doc comment above `fenceTag`. -/
def fenceBlocks : Str → List Str
  | [] => []
  | c :: t =>
    if fenceTok.isPrefixOf (c :: t) then
      match idxOf (((c :: t).drop 3).drop (fenceTag ((c :: t).drop 3))) fenceTok with
      | some j =>
        (c :: t).take (3 + fenceTag ((c :: t).drop 3) + j + 3)
          :: fenceBlocks ((((c :: t).drop 3).drop (fenceTag ((c :: t).drop 3))).drop (j + 3))
      | none => fenceBlocks t
    else fenceBlocks t
  termination_by s => s.length
  decreasing_by
    all_goals simp only [List.length_drop, List.length_cons]
    all_goals omega

/--
One sentinel-marker removal regex of the raw fallback,
`/===\s*NAME\s*===/gi` (global, case-insensitive; `name` given in lower
case): at a `===`, skip the maximal whitespace run, require the name
case-insensitively, skip the maximal whitespace run, require `===`.  Both
`\s*` are forced maximal because the following element is not whitespace. -/
theorem markerChainShorter (name : Str) (c : Char) (t : Str) :
    ((((((c :: t).drop 3).dropWhile jsWS).drop name.length).dropWhile jsWS).drop 3).length
      < (c :: t).length := by
  have h1 := dropWhile_shorter jsWS ((c :: t).drop 3)
  have h2 := dropWhile_shorter jsWS ((((c :: t).drop 3).dropWhile jsWS).drop name.length)
  simp only [List.length_drop, List.length_cons] at h1 h2 ⊢
  omega

/-- See the doc comment above `markerChainShorter`. -/
def stripMarkerOcc (name : Str) : Str → Str
  | [] => []
  | c :: t =>
    if tripleEq.isPrefixOf (c :: t) then
      if ciPre name (((c :: t).drop 3).dropWhile jsWS) then
        if tripleEq.isPrefixOf
            (((((c :: t).drop 3).dropWhile jsWS).drop name.length).dropWhile jsWS) then
          stripMarkerOcc name
            ((((((c :: t).drop 3).dropWhile jsWS).drop name.length).dropWhile jsWS).drop 3)
        else c :: stripMarkerOcc name t
      else c :: stripMarkerOcc name t
    else c :: stripMarkerOcc name t
  termination_by s => s.length
  decreasing_by
    all_goals simp only [List.length_cons]
    all_goals try omega
    all_goals exact markerChainShorter name _ _

/-- The four sentinel-removal regexes of the raw fallback, applied in
source order. -/
def stripMarkers (s : Str) : Str :=
  stripMarkerOcc (("end_python_playwright_script").toList)
    (stripMarkerOcc (("python_playwright_script").toList)
      (stripMarkerOcc (("end_python_selenium_script").toList)
        (stripMarkerOcc (("python_selenium_script").toList) s)))

/-- JavaScript truthiness of a `string | null` script value
(`!pythonSeleniumScript` is true for `null` and for `""`). -/
def truthyS : Option Str → Bool
  | none => false
  | some s => !s.isEmpty

/-- Which parsing branch produced the response (the `parsing_method`
response field: markers, `"fallback-code-fences"`, `"raw-cleaned"`). -/
inductive ParseMethod : Type
  | markers
  | fences
  | rawCleaned
deriving DecidableEq

/-- The `scripts` object of the function's response. -/
structure ScriptsOut where
  python_selenium : Option Str
  python_playwright : Option Str
  method : ParseMethod
deriving DecidableEq

/--
The extraction pipeline of `generate-script-rag/index.ts`: marker
extraction for both sections; if either is missing or empty, the
fenced-code-block fallback (first two blocks) when at least two blocks
exist; otherwise the raw fallback (sentinel markers removed, fences
stripped, `python_playwright` left `null`). -/
def extractScripts (gen : Str) : ScriptsOut :=
  let sel := stripCF (extractBetweenMarkers gen selOpen selClose)
  let pw := stripCF (extractBetweenMarkers gen pwOpen pwClose)
  if truthyS sel && truthyS pw then ⟨sel, pw, .markers⟩
  else
    match fenceBlocks gen with
    | b0 :: b1 :: _ => ⟨stripCF (some b0), stripCF (some b1), .fences⟩
    | _ => ⟨stripCF (some (stripMarkers gen)), none, .rawCleaned⟩

/- ### First-occurrence characterization of `idxOf` -/

theorem idxOf_eq_none_iff (pat : Str) :
    ∀ s : Str, idxOf s pat = none ↔ ∀ i, pat.isPrefixOf (s.drop i) = false := by
  intro s
  induction s with
  | nil =>
    rw [idxOf]
    constructor
    · intro h i
      simp only [List.drop_nil]
      by_cases hp : pat.isPrefixOf ([] : Str) = true
      · rw [if_pos hp] at h; exact absurd h (by simp)
      · exact Bool.eq_false_iff.mpr hp
    · intro h
      have h0 := h 0
      rw [List.drop_nil] at h0
      rw [h0]
      simp
  | cons c t ih =>
    rw [idxOf]
    by_cases hp : pat.isPrefixOf (c :: t) = true
    · rw [if_pos hp]
      constructor
      · intro h; exact absurd h (by simp)
      · intro h
        have h0 := h 0
        rw [List.drop_zero] at h0
        rw [hp] at h0
        exact absurd h0 (by simp)
    · rw [if_neg hp]
      constructor
      · intro h i
        have hnone : idxOf t pat = none := by
          cases hidx : idxOf t pat with
          | none => rfl
          | some j => rw [hidx] at h; exact absurd h (by simp)
        cases i with
        | zero => rw [List.drop_zero]; exact Bool.eq_false_iff.mpr hp
        | succ j =>
          rw [show (c :: t).drop (j + 1) = t.drop j from rfl]
          exact (ih.mp hnone) j
      · intro h
        have hnone : idxOf t pat = none :=
          ih.mpr (fun j => by
            have := h (j + 1)
            rwa [show (c :: t).drop (j + 1) = t.drop j from rfl] at this)
        rw [hnone]
        rfl

theorem idxOf_eq_some_iff (pat : Str) :
    ∀ (s : Str) (i : Nat), idxOf s pat = some i ↔
      (pat.isPrefixOf (s.drop i) = true ∧ ∀ j, j < i → pat.isPrefixOf (s.drop j) = false) := by
  intro s
  induction s with
  | nil =>
    intro i
    rw [idxOf]
    by_cases hp : pat.isPrefixOf ([] : Str) = true
    · rw [if_pos hp]
      constructor
      · intro h
        have : i = 0 := by
          cases h; rfl
        subst this
        exact ⟨by rw [List.drop_nil]; simpa using hp, fun j hj => absurd hj (by omega)⟩
      · intro ⟨h1, h2⟩
        cases i with
        | zero => rfl
        | succ j =>
          have := h2 0 (by omega)
          rw [List.drop_nil] at this
          rw [this] at hp
          exact absurd hp (by simp)
    · rw [if_neg hp]
      constructor
      · intro h; exact absurd h (by simp)
      · intro ⟨h1, _⟩
        rw [List.drop_nil] at h1
        exact absurd h1 hp
  | cons c t ih =>
    intro i
    rw [idxOf]
    by_cases hp : pat.isPrefixOf (c :: t) = true
    · rw [if_pos hp]
      constructor
      · intro h
        have : i = 0 := by cases h; rfl
        subst this
        exact ⟨by rw [List.drop_zero]; exact hp, fun j hj => absurd hj (by omega)⟩
      · intro ⟨h1, h2⟩
        cases i with
        | zero => rfl
        | succ j =>
          have := h2 0 (by omega)
          rw [List.drop_zero] at this
          rw [this] at hp
          exact absurd hp (by simp)
    · rw [if_neg hp]
      cases i with
      | zero =>
        constructor
        · intro h
          cases hidx : idxOf t pat with
          | none => rw [hidx] at h; exact absurd h (by simp)
          | some j =>
            rw [hidx] at h
            simp only [Option.map_some'] at h
            exact absurd h (by simp)
        · intro ⟨h1, _⟩
          rw [List.drop_zero] at h1
          exact absurd h1 hp
      | succ j =>
        constructor
        · intro h
          cases hidx : idxOf t pat with
          | none => rw [hidx] at h; exact absurd h (by simp)
          | some j' =>
            rw [hidx] at h
            simp only [Option.map_some', Option.some.injEq] at h
            have hj : j' = j := by omega
            subst hj
            obtain ⟨h1, h2⟩ := (ih j').mp hidx
            refine ⟨h1, fun m hm => ?_⟩
            cases m with
            | zero => rw [List.drop_zero]; exact Bool.eq_false_iff.mpr hp
            | succ m' =>
              rw [show (c :: t).drop (m' + 1) = t.drop m' from rfl]
              exact h2 m' (by omega)
        · intro ⟨h1, h2⟩
          have hrec : idxOf t pat = some j := by
            refine (ih j).mpr ⟨h1, fun m hm => ?_⟩
            have := h2 (m + 1) (by omega)
            rwa [show (c :: t).drop (m + 1) = t.drop m from rfl] at this
          rw [hrec]
          rfl

/- ### Prefix helper lemmas -/

theorem isPre_nil_left (s : Str) : ([] : Str).isPrefixOf s = true := by
  cases s <;> rfl

theorem isPre_cons (a b : Char) (as bs : Str) :
    (a :: as).isPrefixOf (b :: bs) = ((a == b) && as.isPrefixOf bs) := rfl

theorem isPre_cons_nil (a : Char) (as : Str) : (a :: as).isPrefixOf ([] : Str) = false := rfl

theorem isPrefixOf_append_self (p r : Str) : p.isPrefixOf (p ++ r) = true := by
  induction p with
  | nil => exact isPre_nil_left r
  | cons a t ih =>
    rw [List.cons_append, isPre_cons, ih]
    simp

theorem eq_append_of_isPrefixOf {p s : Str} (h : p.isPrefixOf s = true) :
    s = p ++ s.drop p.length := by
  induction p generalizing s with
  | nil => simp
  | cons a t ih =>
    cases s with
    | nil => rw [isPre_cons_nil] at h; exact absurd h (by simp)
    | cons b s' =>
      rw [isPre_cons, Bool.and_eq_true] at h
      have hab : a = b := by simpa using h.1
      subst hab
      show a :: s' = a :: (t ++ s'.drop t.length)
      rw [← ih h.2]

theorem take_isPrefixOf {p w : Str} (h : p.isPrefixOf w = true) (k : Nat) :
    (p.take k).isPrefixOf (w.take k) = true := by
  induction p generalizing w k with
  | nil => simp only [List.take_nil]; exact isPre_nil_left _
  | cons a t ih =>
    cases w with
    | nil => rw [isPre_cons_nil] at h; exact absurd h (by simp)
    | cons b w' =>
      rw [isPre_cons, Bool.and_eq_true] at h
      cases k with
      | zero => simp only [List.take_zero]; exact isPre_nil_left _
      | succ k' =>
        simp only [List.take_succ_cons]
        rw [isPre_cons, h.1, ih h.2 k']
        rfl

theorem tripleEq_expand : tripleEq = ('=' : Char) :: '=' :: '=' :: [] := by decide

/-- A pattern starting with `===` cannot match at the start of a block `y`
(not itself starting with `===`) followed by a newline: the first three
pattern characters would have to straddle the `'\n'`. -/
theorem three_eq_no_match (p' y z : Str)
    (hy : tripleEq.isPrefixOf y = false) :
    (('=' : Char) :: '=' :: '=' :: p').isPrefixOf (y ++ '\n' :: z) = false := by
  have hne : (('=' : Char) == '\n') = false := by decide
  match y with
  | [] =>
    rw [List.nil_append, isPre_cons, hne]
    rfl
  | [a] =>
    rw [List.cons_append, List.nil_append, isPre_cons, isPre_cons, hne]
    simp
  | [a, b] =>
    rw [List.cons_append, List.cons_append, List.nil_append, isPre_cons, isPre_cons,
      isPre_cons, hne]
    simp
  | a :: b :: c :: y' =>
    rw [tripleEq_expand, isPre_cons, isPre_cons, isPre_cons, isPre_nil_left] at hy
    simp only [List.cons_append, isPre_cons]
    simp only [Bool.and_true] at hy
    simp only [Bool.and_eq_false_iff] at hy ⊢
    rcases hy with h | h | h
    · exact Or.inl h
    · exact Or.inr (Or.inl h)
    · exact Or.inr (Or.inr (Or.inl h))

/-- Skipping a block: if the pattern cannot match at any position of the
block `x` (followed by `'\n'`), the first occurrence in `x ++ '\n' :: z`
is the first occurrence in `z`, shifted past the block and the newline. -/
theorem idxOf_skip (pat x z : Str)
    (hne : ∀ i, i < x.length + 1 → pat.isPrefixOf ((x ++ '\n' :: z).drop i) = false) :
    idxOf (x ++ '\n' :: z) pat = (idxOf z pat).map (· + (x.length + 1)) := by
  induction x with
  | nil =>
    have h0 := hne 0 (by omega)
    rw [List.drop_zero, List.nil_append] at h0
    rw [List.nil_append, idxOf, if_neg (by simp [h0])]
    simp only [List.length_nil]
  | cons c x' ih =>
    have h0 := hne 0 (by simp only [List.length_cons]; omega)
    rw [List.drop_zero] at h0
    rw [List.cons_append, idxOf,
      if_neg (by rw [List.cons_append] at h0; simp [h0])]
    have ih' := ih (fun i hi => by
      have hs := hne (i + 1) (by simp only [List.length_cons]; omega)
      rwa [show ((c :: x') ++ '\n' :: z).drop (i + 1) = (x' ++ '\n' :: z).drop i from rfl] at hs)
    rw [ih']
    cases idxOf z pat with
    | none => rfl
    | some j =>
      simp only [Option.map_some', Option.some.injEq, List.length_cons]
      omega

/-- Position failures inside a block with no `===`, for a pattern starting
with `===`. -/
theorem no_match_in_sym (p' x z : Str) (hx : idxOf x tripleEq = none) :
    ∀ i, i < x.length + 1 →
      (('=' : Char) :: '=' :: '=' :: p').isPrefixOf ((x ++ '\n' :: z).drop i) = false := by
  intro i hi
  have hdrop : (x ++ '\n' :: z).drop i = x.drop i ++ '\n' :: z :=
    List.drop_append_of_le_length (by omega)
  rw [hdrop]
  exact three_eq_no_match p' (x.drop i) z ((idxOf_eq_none_iff tripleEq x).mp hx i)

/-- Position failures inside a concrete block: decided by checking, for
every start position, that the pattern's visible part does not match up
to and including the `'\n'` terminator. -/
theorem no_match_in_conc (pat x z : Str)
    (hx : ∀ i, i < x.length + 1 →
      (pat.take (x.length - i + 1)).isPrefixOf (x.drop i ++ ['\n']) = false) :
    ∀ i, i < x.length + 1 → pat.isPrefixOf ((x ++ '\n' :: z).drop i) = false := by
  intro i hi
  have hdrop : (x ++ '\n' :: z).drop i = x.drop i ++ '\n' :: z :=
    List.drop_append_of_le_length (by omega)
  rw [hdrop]
  by_contra hcon
  have hpre : pat.isPrefixOf (x.drop i ++ '\n' :: z) = true := by
    cases h : pat.isPrefixOf (x.drop i ++ '\n' :: z) with
    | false => exact absurd h hcon
    | true => rfl
  have htake := take_isPrefixOf hpre (x.length - i + 1)
  have hsplit : (x.drop i ++ '\n' :: z).take (x.length - i + 1) = x.drop i ++ ['\n'] := by
    have hlen : (x.drop i).length = x.length - i := List.length_drop i x
    rw [show x.length - i + 1 = (x.drop i).length + 1 from by omega]
    rw [List.take_append]
    rfl
  rw [hsplit] at htake
  rw [hx i hi] at htake
  exact absurd htake (by simp)

/- ### Trim and fence-stripping identity lemmas -/

theorem dropWhile_eq_of_length_eq (p : Char → Bool) (l : Str)
    (h : (l.dropWhile p).length = l.length) : l.dropWhile p = l := by
  cases l with
  | nil => rfl
  | cons a t =>
    rw [List.dropWhile_cons]
    by_cases hp : p a = true
    · rw [List.dropWhile_cons, if_pos hp] at h
      have := dropWhile_shorter p t
      simp only [List.length_cons] at h
      omega
    · rw [if_neg hp]

theorem dropWhile_append_ne (p : Char → Bool) (l₁ l₂ : Str) (h : l₁.dropWhile p ≠ []) :
    (l₁ ++ l₂).dropWhile p = l₁.dropWhile p ++ l₂ := by
  induction l₁ with
  | nil => exact absurd rfl h
  | cons a t ih =>
    rw [List.cons_append, List.dropWhile_cons, List.dropWhile_cons]
    by_cases hp : p a = true
    · rw [if_pos hp, if_pos hp]
      rw [List.dropWhile_cons, if_pos hp] at h
      exact ih h
    · rw [if_neg hp, if_neg hp, List.cons_append]

theorem jsTrim_parts {A : Str} (h : jsTrim A = A) : jsTrimL A = A ∧ jsTrimR A = A := by
  have h1 : (jsTrimR A).length ≤ A.length := by
    unfold jsTrimR
    rw [List.length_reverse]
    calc (A.reverse.dropWhile jsWS).length ≤ A.reverse.length := dropWhile_shorter _ _
      _ = A.length := List.length_reverse A
  have h2 : (jsTrimL (jsTrimR A)).length ≤ (jsTrimR A).length := dropWhile_shorter _ _
  have hlen : A.length = (jsTrim A).length := by rw [h]
  unfold jsTrim at hlen
  have hR : jsTrimR A = A := by
    have hlen2 : (jsTrimR A).length = A.length := by omega
    unfold jsTrimR at hlen2 ⊢
    rw [List.length_reverse] at hlen2
    rw [dropWhile_eq_of_length_eq _ _ (by rw [List.length_reverse]; exact hlen2),
      List.reverse_reverse]
  constructor
  · have : jsTrimL A = A := by
      have := h
      unfold jsTrim at this
      rwa [hR] at this
    exact this
  · exact hR

theorem jsTrimL_cons_ws (c : Char) (hc : jsWS c = true) (s : Str) :
    jsTrimL (c :: s) = jsTrimL s := by
  unfold jsTrimL
  rw [List.dropWhile_cons, if_pos hc]

theorem jsTrimR_append_ws (s : Str) (c : Char) (hc : jsWS c = true) :
    jsTrimR (s ++ [c]) = jsTrimR s := by
  unfold jsTrimR
  rw [List.reverse_append]
  show ((c :: s.reverse).dropWhile jsWS).reverse = _
  rw [List.dropWhile_cons, if_pos hc]

/-- `jsTrim ('\n' :: A ++ ['\n']) = A` for already-trimmed nonempty `A`. -/
theorem jsTrim_wrap (A : Str) (hA : jsTrim A = A) (hne : A ≠ []) :
    jsTrim (('\n' :: A) ++ ['\n']) = A := by
  obtain ⟨hL, hR⟩ := jsTrim_parts hA
  unfold jsTrim
  rw [jsTrimR_append_ws _ '\n' (by decide)]
  have hRrev : A.reverse.dropWhile jsWS = A.reverse := by
    have : (A.reverse.dropWhile jsWS).reverse = A := hR
    have h2 := congrArg List.reverse this
    rwa [List.reverse_reverse] at h2
  have hRcons : jsTrimR ('\n' :: A) = '\n' :: A := by
    unfold jsTrimR
    rw [List.reverse_cons]
    rw [dropWhile_append_ne jsWS A.reverse ['\n'] (by
      rw [hRrev]
      intro hcon
      exact hne (by simpa using congrArg List.reverse hcon))]
    rw [hRrev, ← List.reverse_cons]
    rw [List.reverse_reverse]
  rw [hRcons]
  rw [jsTrimL_cons_ws '\n' (by decide) A]
  exact hL

/- ### Fence-stripping is the identity on backtick-free text -/

theorem rep1_id (s : Str) (h : idxOf s fenceTok = none) : ∀ b, rep1 b s = s := by
  induction s with
  | nil => intro b; simp only [rep1]
  | cons c t ih =>
    intro b
    have h0 := (idxOf_eq_none_iff fenceTok (c :: t)).mp h 0
    rw [List.drop_zero] at h0
    have ht : idxOf t fenceTok = none :=
      (idxOf_eq_none_iff fenceTok t).mpr (fun i => by
        have := (idxOf_eq_none_iff fenceTok (c :: t)).mp h (i + 1)
        rwa [show (c :: t).drop (i + 1) = t.drop i from rfl] at this)
    simp only [rep1, h0, Bool.and_false, if_neg]
    rw [ih ht]
    simp

theorem rep2_id (s : Str) (h : idxOf s fenceTok = none) : rep2 s = s := by
  induction s with
  | nil => simp only [rep2]
  | cons c t ih =>
    have h0 := (idxOf_eq_none_iff fenceTok (c :: t)).mp h 0
    rw [List.drop_zero] at h0
    have ht : idxOf t fenceTok = none :=
      (idxOf_eq_none_iff fenceTok t).mpr (fun i => by
        have := (idxOf_eq_none_iff fenceTok (c :: t)).mp h (i + 1)
        rwa [show (c :: t).drop (i + 1) = t.drop i from rfl] at this)
    simp only [rep2, h0, if_neg]
    rw [ih ht]
    simp

theorem rep3_id (s : Str) (h : idxOf s fenceTok = none) : ∀ b, rep3 b s = s := by
  induction s with
  | nil => intro b; simp only [rep3]
  | cons c t ih =>
    intro b
    have h0 := (idxOf_eq_none_iff fenceTok (c :: t)).mp h 0
    rw [List.drop_zero] at h0
    have ht : idxOf t fenceTok = none :=
      (idxOf_eq_none_iff fenceTok t).mpr (fun i => by
        have := (idxOf_eq_none_iff fenceTok (c :: t)).mp h (i + 1)
        rwa [show (c :: t).drop (i + 1) = t.drop i from rfl] at this)
    simp only [rep3, h0, Bool.and_false, if_neg]
    rw [ih ht]
    simp

theorem stripPasses_id (s : Str) (h : idxOf s fenceTok = none) (htrim : jsTrim s = s) :
    stripPasses s = s := by
  unfold stripPasses
  rw [htrim, rep1_id s h, rep2_id s h, rep3_id s h, htrim]

theorem stripCF_id (s : Str) (h : idxOf s fenceTok = none) (htrim : jsTrim s = s) :
    stripCF (some s) = some s := by
  simp only [stripCF]
  by_cases hs : s = []
  · rw [if_pos hs]; rw [hs]
  · rw [if_neg hs, stripPasses_id s h htrim]

/- ### The canonical two-section response of scenario B -/

/-- The response shape of the output-format contract: both sections present,
each sentinel on its own line. -/
def canonResp (A B : Str) : Str :=
  selOpen ++ '\n' :: (A ++ '\n' :: (selClose ++ '\n' :: (pwOpen ++ '\n' :: (B ++ '\n' :: pwClose))))

theorem isPrefixOf_self (p : Str) : p.isPrefixOf p = true := by
  induction p with
  | nil => rfl
  | cons a t ih => rw [isPre_cons, ih]; simp

theorem idxOf_unfold (s pat : Str) : idxOf s pat
    = if pat.isPrefixOf s then some 0
      else match s with | [] => none | _ :: t => (idxOf t pat).map (· + 1) := by
  rw [idxOf.eq_def]

theorem idxOf_self_append (pat r : Str) : idxOf (pat ++ r) pat = some 0 := by
  rw [idxOf_unfold, if_pos (isPrefixOf_append_self pat r)]

theorem idxOf_self (pat : Str) : idxOf pat pat = some 0 := by
  rw [idxOf_unfold, if_pos (isPrefixOf_self pat)]

theorem idxOf_none_shift_cons (pat : Str) (c : Char) (x : Str)
    (h0 : pat.isPrefixOf (c :: x) = false) (hx : idxOf x pat = none) :
    idxOf (c :: x) pat = none := by
  rw [idxOf, if_neg (by simp [h0]), hx]
  rfl

theorem take_append_exact (l₁ l₂ : Str) (n : Nat) :
    (l₁ ++ l₂).take (l₁.length + n) = l₁ ++ l₂.take n := by
  induction l₁ with
  | nil => simp
  | cons a t ih =>
    simp only [List.cons_append, List.length_cons]
    rw [show t.length + 1 + n = (t.length + n) + 1 from by omega]
    rw [List.take_succ_cons, ih]

theorem tripleEq_not_newline_cons (x : Str) : tripleEq.isPrefixOf ('\n' :: x) = false := by
  rw [tripleEq_expand, isPre_cons]
  simp

/-- No `===` in `A` means no `===` in `'\n' :: A`. -/
theorem idxOf_tripleEq_newline_cons (A : Str) (hA : idxOf A tripleEq = none) :
    idxOf ('\n' :: A) tripleEq = none :=
  idxOf_none_shift_cons tripleEq '\n' A (tripleEq_not_newline_cons A) hA

/-- Marker search in the canonical response, Selenium section. -/
theorem canon_sel (A B : Str) (hA1 : jsTrim A = A) (hA2 : A ≠ [])
    (hA3 : idxOf A tripleEq = none) :
    extractBetweenMarkers (canonResp A B) selOpen selClose = some A := by
  have hopen : idxOf (canonResp A B) selOpen = some 0 := by
    unfold canonResp
    exact idxOf_self_append _ _
  have hrest : (canonResp A B).drop (0 + selOpen.length)
      = ('\n' :: A) ++ '\n' :: (selClose ++ '\n' :: (pwOpen ++ '\n' :: (B ++ '\n' :: pwClose))) := by
    unfold canonResp
    rw [Nat.zero_add, List.drop_left]
    simp only [List.cons_append]
  have hscE : selClose = ('=' : Char) :: '=' :: '=' :: (selClose.drop 3) := by decide
  have hxA : idxOf ('\n' :: A) tripleEq = none := idxOf_tripleEq_newline_cons A hA3
  have hne := no_match_in_sym (selClose.drop 3) ('\n' :: A)
    (selClose ++ '\n' :: (pwOpen ++ '\n' :: (B ++ '\n' :: pwClose))) hxA
  simp only [← hscE] at hne
  have hclose : idxOf (('\n' :: A) ++ '\n' :: (selClose ++ '\n' :: (pwOpen ++ '\n' :: (B ++ '\n' :: pwClose)))) selClose
      = some (A.length + 2) := by
    rw [idxOf_skip selClose ('\n' :: A) _ hne, idxOf_self_append]
    simp only [Option.map_some', Option.some.injEq, List.length_cons]
    omega
  have htake : (('\n' :: A) ++ '\n' :: (selClose ++ '\n' :: (pwOpen ++ '\n' :: (B ++ '\n' :: pwClose)))).take (A.length + 2)
      = ('\n' :: A) ++ ['\n'] := by
    rw [show A.length + 2 = ('\n' :: A).length + 1 from by simp]
    rw [take_append_exact]
    rfl
  simp only [extractBetweenMarkers, hopen, hrest, hclose, htake]
  rw [jsTrim_wrap A hA1 hA2]


/-- Marker search in the canonical response, Playwright section. -/
theorem canon_pw (A B : Str) (hA3 : idxOf A tripleEq = none)
    (hB1 : jsTrim B = B) (hB2 : B ≠ []) (hB3 : idxOf B tripleEq = none) :
    extractBetweenMarkers (canonResp A B) pwOpen pwClose = some B := by
  have l1 : selOpen.length = 30 := by decide
  have l2 : selClose.length = 34 := by decide
  have l3 : pwOpen.length = 32 := by decide
  have hpwoE : pwOpen = ('=' : Char) :: '=' :: '=' :: (pwOpen.drop 3) := by decide
  have hpwcE : pwClose = ('=' : Char) :: '=' :: '=' :: (pwClose.drop 3) := by decide
  have hneA := no_match_in_sym (pwOpen.drop 3) A
    (selClose ++ '\n' :: (pwOpen ++ '\n' :: (B ++ '\n' :: pwClose))) hA3
  simp only [← hpwoE] at hneA
  have hopen2 : idxOf (canonResp A B) pwOpen = some (A.length + 67) := by
    unfold canonResp
    rw [idxOf_skip pwOpen selOpen _ (no_match_in_conc pwOpen selOpen _ (by decide))]
    rw [idxOf_skip pwOpen A _ hneA]
    rw [idxOf_skip pwOpen selClose _ (no_match_in_conc pwOpen selClose _ (by decide))]
    rw [idxOf_self_append]
    simp only [Option.map_some', Option.some.injEq, l1, l2]
    omega
  have hPRE : canonResp A B
      = (selOpen ++ '\n' :: (A ++ '\n' :: (selClose ++ '\n' :: pwOpen)))
        ++ ('\n' :: (B ++ '\n' :: pwClose)) := by
    unfold canonResp
    simp only [List.cons_append, List.append_assoc]
  have hPRElen : (selOpen ++ '\n' :: (A ++ '\n' :: (selClose ++ '\n' :: pwOpen))).length
      = A.length + 99 := by
    simp only [List.length_append, List.length_cons, l1, l2, l3]
    omega
  have hrest2 : (canonResp A B).drop (A.length + 67 + pwOpen.length)
      = ('\n' :: B) ++ '\n' :: pwClose := by
    rw [hPRE]
    rw [show A.length + 67 + pwOpen.length
        = (selOpen ++ '\n' :: (A ++ '\n' :: (selClose ++ '\n' :: pwOpen))).length from by
      rw [hPRElen, l3]]
    rw [List.drop_left]
    simp only [List.cons_append]
  have hclose2 : idxOf (('\n' :: B) ++ '\n' :: pwClose) pwClose = some (B.length + 2) := by
    have hxB : idxOf ('\n' :: B) tripleEq = none := idxOf_tripleEq_newline_cons B hB3
    have hne := no_match_in_sym (pwClose.drop 3) ('\n' :: B) pwClose hxB
    simp only [← hpwcE] at hne
    rw [idxOf_skip pwClose ('\n' :: B) pwClose hne, idxOf_self]
    simp only [Option.map_some', Option.some.injEq, List.length_cons]
    omega
  have htake2 : (('\n' :: B) ++ '\n' :: pwClose).take (B.length + 2)
      = ('\n' :: B) ++ ['\n'] := by
    rw [show B.length + 2 = ('\n' :: B).length + 1 from by simp]
    rw [take_append_exact]
    rfl
  simp only [extractBetweenMarkers, hopen2, hrest2, hclose2, htake2]
  rw [jsTrim_wrap B hB1 hB2]

/-- A payload with no `===` run contains no occurrence of any sentinel
marker (every sentinel begins with `===`). -/
theorem no_tripleEq_no_marker (s pat : Str) (hpat : tripleEq.isPrefixOf pat = true)
    (hs : idxOf s tripleEq = none) : idxOf s pat = none := by
  rw [idxOf_eq_none_iff] at hs ⊢
  intro i
  by_contra hcon
  have hp : pat.isPrefixOf (s.drop i) = true := by
    cases hb : pat.isPrefixOf (s.drop i) with
    | false => exact absurd hb hcon
    | true => rfl
  have hd := eq_append_of_isPrefixOf hp
  have hpd := eq_append_of_isPrefixOf hpat
  have : tripleEq.isPrefixOf (s.drop i) = true := by
    rw [hd, hpd, List.append_assoc]
    exact isPrefixOf_append_self _ _
  exact absurd this (by rw [hs i]; simp)

/--
C1.  Script extraction by sentinel markers.  (a) When the opening sentinel
occurs (first occurrence at `i`) and no closing sentinel follows it,
`extractBetweenMarkers` returns everything from just after the opening
sentinel to the end of the response, trimmed (tolerating truncated
generations).  (b) For a response of the canonical form
`=== PYTHON_SELENIUM_SCRIPT ===`, code `A`, `=== END_PYTHON_SELENIUM_SCRIPT ===`,
`=== PYTHON_PLAYWRIGHT_SCRIPT ===`, code `B`, `=== END_PYTHON_PLAYWRIGHT_SCRIPT ===`
(sections separated by newlines), with `A` and `B` trimmed, non-empty,
fence-free and containing no `===` run, the pipeline returns primary
`= A` and alternate `= B` via the marker branch.  (c) No sentinel marker
occurs in either extracted payload. -/
theorem C1_marker_extraction
    (A B : Str)
    (hA1 : jsTrim A = A) (hA2 : A ≠ []) (hA3 : idxOf A tripleEq = none)
    (hAf : idxOf A fenceTok = none)
    (hB1 : jsTrim B = B) (hB2 : B ≠ []) (hB3 : idxOf B tripleEq = none)
    (hBf : idxOf B fenceTok = none)
    (source : Str) (i : Nat)
    (hopen : idxOf source selOpen = some i)
    (hnoclose : idxOf (source.drop (i + selOpen.length)) selClose = none) :
    extractBetweenMarkers source selOpen selClose
      = some (jsTrim (source.drop (i + selOpen.length)))
    ∧ extractScripts (canonResp A B)
      = ⟨some A, some B, ParseMethod.markers⟩
    ∧ (∀ m, m = selOpen ∨ m = selClose ∨ m = pwOpen ∨ m = pwClose →
        idxOf A m = none ∧ idxOf B m = none) := by
  refine ⟨?_, ?_, ?_⟩
  · simp only [extractBetweenMarkers, hopen, hnoclose]
  · have hsel := canon_sel A B hA1 hA2 hA3
    have hpw := canon_pw A B hA3 hB1 hB2 hB3
    have htA : truthyS (some A) = true := by
      cases A with
      | nil => exact absurd rfl hA2
      | cons a t => rfl
    have htB : truthyS (some B) = true := by
      cases B with
      | nil => exact absurd rfl hB2
      | cons b t => rfl
    simp only [extractScripts, hsel, hpw, stripCF_id A hAf hA1, stripCF_id B hBf hB1,
      htA, htB, Bool.and_self, if_pos]
  · intro m hm
    have hpre : tripleEq.isPrefixOf m = true := by
      rcases hm with h | h | h | h <;> rw [h] <;> decide
    exact ⟨no_tripleEq_no_marker A m hpre hA3, no_tripleEq_no_marker B m hpre hB3⟩

/-- Witness for C1 at concrete payloads and a concrete truncated source. -/
theorem C1_witness :
    extractScripts (canonResp (("x = 1").toList) (("y = 2").toList))
      = ⟨some (("x = 1").toList), some (("y = 2").toList), ParseMethod.markers⟩ :=
  (C1_marker_extraction (("x = 1").toList) (("y = 2").toList)
    (by decide) (by decide) (by decide) (by decide)
    (by decide) (by decide) (by decide) (by decide)
    (selOpen ++ '\n' :: (("x = 1").toList)) 0
    (by decide) (by decide)).2.1

/- ### Fuel-indexed mirrors of the well-founded scanners

The scanners above are compiled by well-founded recursion and therefore do
not reduce inside the kernel; these fuel-indexed structural copies do, and
are proved equal to them whenever the fuel exceeds the input length. -/

def rep1F : Nat → Bool → Str → Str
  | 0, _, _ => []
  | _ + 1, _, [] => []
  | f + 1, atLS, c :: t =>
    if atLS && fenceTok.isPrefixOf (c :: t) then
      rep1F f (((((c :: t).drop 3).dropWhile isTagChar).takeWhile jsWS).getLast? == some '\n')
        ((((c :: t).drop 3).dropWhile isTagChar).dropWhile jsWS)
    else c :: rep1F f (c == '\n') t

theorem rep1F_eq : ∀ f s a, s.length < f → rep1F f a s = rep1 a s := by
  intro f
  induction f with
  | zero => intro s a h; omega
  | succ f ih =>
    intro s a h
    cases s with
    | nil => simp only [rep1F, rep1]
    | cons c t =>
      simp only [rep1F, rep1]
      by_cases hc : (a && fenceTok.isPrefixOf (c :: t)) = true
      · rw [if_pos hc, if_pos hc]
        apply ih
        have := rep1Shorter c t
        simp only [List.length_cons] at h this ⊢
        omega
      · rw [if_neg hc, if_neg hc]
        have ht : t.length < f := by
          simp only [List.length_cons] at h
          omega
        rw [ih t (c == '\n') ht]

def rep2F : Nat → Str → Str
  | 0, _ => []
  | _ + 1, [] => []
  | f + 1, c :: t =>
    if fenceTok.isPrefixOf (c :: t) then
      if (((c :: t).drop 3).takeWhile jsWS).length = ((c :: t).drop 3).length then []
      else
        match lastIdxOf (((c :: t).drop 3).takeWhile jsWS) '\n' with
        | some k => rep2F f (((c :: t).drop 3).drop k)
        | none => c :: rep2F f t
    else c :: rep2F f t

theorem rep2F_eq : ∀ f s, s.length < f → rep2F f s = rep2 s := by
  intro f
  induction f with
  | zero => intro s h; omega
  | succ f ih =>
    intro s h
    cases s with
    | nil => simp only [rep2F, rep2]
    | cons c t =>
      simp only [rep2F, rep2]
      have ht : t.length < f := by
        simp only [List.length_cons] at h
        omega
      by_cases h1 : fenceTok.isPrefixOf (c :: t) = true
      · rw [if_pos h1, if_pos h1]
        by_cases h2 : (((c :: t).drop 3).takeWhile jsWS).length = ((c :: t).drop 3).length
        · rw [if_pos h2, if_pos h2]
        · rw [if_neg h2, if_neg h2]
          split
          · apply ih
            simp only [List.length_drop, List.length_cons] at h ⊢
            omega
          · rw [ih t ht]
      · rw [if_neg h1, if_neg h1]
        rw [ih t ht]

def rep3F : Nat → Bool → Str → Str
  | 0, _, _ => []
  | _ + 1, _, [] => []
  | f + 1, atLS, c :: t =>
    if atLS && fenceTok.isPrefixOf (c :: t) then
      if (((c :: t).drop 3).takeWhile jsWS).length = ((c :: t).drop 3).length then []
      else
        match lastIdxOf (((c :: t).drop 3).takeWhile jsWS) '\n' with
        | some k =>
          rep3F f (((((c :: t).drop 3).takeWhile jsWS).take k).getLast? == some '\n')
            (((c :: t).drop 3).drop k)
        | none => c :: rep3F f (c == '\n') t
    else c :: rep3F f (c == '\n') t

theorem rep3F_eq : ∀ f s a, s.length < f → rep3F f a s = rep3 a s := by
  intro f
  induction f with
  | zero => intro s a h; omega
  | succ f ih =>
    intro s a h
    cases s with
    | nil => simp only [rep3F, rep3]
    | cons c t =>
      simp only [rep3F, rep3]
      have ht : t.length < f := by
        simp only [List.length_cons] at h
        omega
      by_cases h1 : (a && fenceTok.isPrefixOf (c :: t)) = true
      · rw [if_pos h1, if_pos h1]
        by_cases h2 : (((c :: t).drop 3).takeWhile jsWS).length = ((c :: t).drop 3).length
        · rw [if_pos h2, if_pos h2]
        · rw [if_neg h2, if_neg h2]
          split
          · apply ih
            simp only [List.length_drop, List.length_cons] at h ⊢
            omega
          · rw [ih t (c == '\n') ht]
      · rw [if_neg h1, if_neg h1]
        rw [ih t (c == '\n') ht]

def fenceBlocksF : Nat → Str → List Str
  | 0, _ => []
  | _ + 1, [] => []
  | f + 1, c :: t =>
    if fenceTok.isPrefixOf (c :: t) then
      match idxOf (((c :: t).drop 3).drop (fenceTag ((c :: t).drop 3))) fenceTok with
      | some j =>
        (c :: t).take (3 + fenceTag ((c :: t).drop 3) + j + 3)
          :: fenceBlocksF f ((((c :: t).drop 3).drop (fenceTag ((c :: t).drop 3))).drop (j + 3))
      | none => fenceBlocksF f t
    else fenceBlocksF f t

theorem fenceBlocksF_eq : ∀ f s, s.length < f → fenceBlocksF f s = fenceBlocks s := by
  intro f
  induction f with
  | zero => intro s h; omega
  | succ f ih =>
    intro s h
    cases s with
    | nil => simp only [fenceBlocksF, fenceBlocks]
    | cons c t =>
      simp only [fenceBlocksF, fenceBlocks]
      have ht : t.length < f := by
        simp only [List.length_cons] at h
        omega
      by_cases h1 : fenceTok.isPrefixOf (c :: t) = true
      · rw [if_pos h1, if_pos h1]
        split
        · rw [ih]
          simp only [List.length_drop, List.length_cons] at h ⊢
          omega
        · rw [ih t ht]
      · rw [if_neg h1, if_neg h1]
        rw [ih t ht]

def stripMarkerOccF (name : Str) : Nat → Str → Str
  | 0, _ => []
  | _ + 1, [] => []
  | f + 1, c :: t =>
    if tripleEq.isPrefixOf (c :: t) then
      if ciPre name (((c :: t).drop 3).dropWhile jsWS) then
        if tripleEq.isPrefixOf
            (((((c :: t).drop 3).dropWhile jsWS).drop name.length).dropWhile jsWS) then
          stripMarkerOccF name f
            ((((((c :: t).drop 3).dropWhile jsWS).drop name.length).dropWhile jsWS).drop 3)
        else c :: stripMarkerOccF name f t
      else c :: stripMarkerOccF name f t
    else c :: stripMarkerOccF name f t

theorem stripMarkerOccF_eq (name : Str) :
    ∀ f s, s.length < f → stripMarkerOccF name f s = stripMarkerOcc name s := by
  intro f
  induction f with
  | zero => intro s h; omega
  | succ f ih =>
    intro s h
    cases s with
    | nil => simp only [stripMarkerOccF, stripMarkerOcc]
    | cons c t =>
      simp only [stripMarkerOccF, stripMarkerOcc]
      have ht : t.length < f := by
        simp only [List.length_cons] at h
        omega
      by_cases h1 : tripleEq.isPrefixOf (c :: t) = true
      · rw [if_pos h1, if_pos h1]
        by_cases h2 : ciPre name (((c :: t).drop 3).dropWhile jsWS) = true
        · rw [if_pos h2, if_pos h2]
          by_cases h3 : tripleEq.isPrefixOf
              (((((c :: t).drop 3).dropWhile jsWS).drop name.length).dropWhile jsWS) = true
          · rw [if_pos h3, if_pos h3]
            apply ih
            have := markerChainShorter name c t
            simp only [List.length_cons] at h this ⊢
            omega
          · rw [if_neg h3, if_neg h3, ih t ht]
        · rw [if_neg h2, if_neg h2, ih t ht]
      · rw [if_neg h1, if_neg h1, ih t ht]

/-- Kernel-evaluable wrappers, with fuel one more than the input length. -/
def rep1W (a : Bool) (s : Str) : Str := rep1F (s.length + 1) a s

def rep2W (s : Str) : Str := rep2F (s.length + 1) s

def rep3W (a : Bool) (s : Str) : Str := rep3F (s.length + 1) a s

def fenceBlocksW (s : Str) : List Str := fenceBlocksF (s.length + 1) s

def stripMarkerOccW (name s : Str) : Str := stripMarkerOccF name (s.length + 1) s

theorem rep1W_eq (a : Bool) (s : Str) : rep1W a s = rep1 a s :=
  rep1F_eq (s.length + 1) s a (Nat.lt_succ_self _)

theorem rep2W_eq (s : Str) : rep2W s = rep2 s :=
  rep2F_eq (s.length + 1) s (Nat.lt_succ_self _)

theorem rep3W_eq (a : Bool) (s : Str) : rep3W a s = rep3 a s :=
  rep3F_eq (s.length + 1) s a (Nat.lt_succ_self _)

theorem fenceBlocksW_eq (s : Str) : fenceBlocksW s = fenceBlocks s :=
  fenceBlocksF_eq (s.length + 1) s (Nat.lt_succ_self _)

theorem stripMarkerOccW_eq (name s : Str) : stripMarkerOccW name s = stripMarkerOcc name s :=
  stripMarkerOccF_eq name (s.length + 1) s (Nat.lt_succ_self _)

def stripPassesW (s : Str) : Str := jsTrim (rep3W true (rep2W (rep1W true (jsTrim s))))

theorem stripPassesW_eq (s : Str) : stripPassesW s = stripPasses s := by
  simp only [stripPassesW, stripPasses, rep1W_eq, rep2W_eq, rep3W_eq]

def stripCFW : Option Str → Option Str
  | none => none
  | some s => if s = [] then some [] else some (stripPassesW s)

theorem stripCFW_eq (o : Option Str) : stripCFW o = stripCF o := by
  cases o with
  | none => rfl
  | some s => simp only [stripCFW, stripCF, stripPassesW_eq]

def stripMarkersW (s : Str) : Str :=
  stripMarkerOccW (("end_python_playwright_script").toList)
    (stripMarkerOccW (("python_playwright_script").toList)
      (stripMarkerOccW (("end_python_selenium_script").toList)
        (stripMarkerOccW (("python_selenium_script").toList) s)))

theorem stripMarkersW_eq (s : Str) : stripMarkersW s = stripMarkers s := by
  simp only [stripMarkersW, stripMarkers, stripMarkerOccW_eq]

def extractScriptsW (gen : Str) : ScriptsOut :=
  let sel := stripCFW (extractBetweenMarkers gen selOpen selClose)
  let pw := stripCFW (extractBetweenMarkers gen pwOpen pwClose)
  if truthyS sel && truthyS pw then ⟨sel, pw, .markers⟩
  else
    match fenceBlocksW gen with
    | b0 :: b1 :: _ => ⟨stripCFW (some b0), stripCFW (some b1), .fences⟩
    | _ => ⟨stripCFW (some (stripMarkersW gen)), none, .rawCleaned⟩

theorem extractScriptsW_eq (gen : Str) : extractScriptsW gen = extractScripts gen := by
  simp only [extractScriptsW, extractScripts, stripCFW_eq, stripMarkersW_eq, fenceBlocksW_eq]

theorem stripCF_some_ne_none (s : Str) : stripCF (some s) ≠ none := by
  simp only [stripCF]
  split <;> simp

theorem truthyS_ne_none {o : Option Str} (h : truthyS o = true) : o ≠ none := by
  intro hn
  rw [hn] at h
  exact absurd h (by simp [truthyS])

/--
C2.  Extraction never fails the request: when marker extraction does not
produce two truthy scripts and fewer than two fenced blocks exist, the
pipeline returns the raw response with sentinel markers removed and fences
stripped as the primary script and a null alternate; and for every
response whatsoever the primary script field is non-null.  (The claim's
own branch condition — the fence fallback "failing to produce two
non-empty scripts" — does not match the code, which keys the fence branch
on the block count alone; see the counterexample.) -/
theorem C2_raw_fallback (gen : Str)
    (hm : (truthyS (stripCF (extractBetweenMarkers gen selOpen selClose))
        && truthyS (stripCF (extractBetweenMarkers gen pwOpen pwClose))) = false)
    (hf : (fenceBlocks gen).length < 2) :
    extractScripts gen
      = ⟨stripCF (some (stripMarkers gen)), none, ParseMethod.rawCleaned⟩
    ∧ ∀ g : Str, (extractScripts g).python_selenium ≠ none := by
  constructor
  · simp only [extractScripts]
    rw [if_neg (by rw [hm]; simp)]
    cases hfb : fenceBlocks gen with
    | nil => rfl
    | cons b0 t0 =>
      cases t0 with
      | nil => rfl
      | cons b1 t1 =>
        exfalso
        rw [hfb] at hf
        simp only [List.length_cons] at hf
        omega
  · intro g
    simp only [extractScripts]
    by_cases hc : (truthyS (stripCF (extractBetweenMarkers g selOpen selClose))
        && truthyS (stripCF (extractBetweenMarkers g pwOpen pwClose))) = true
    · rw [if_pos hc]
      have hc2 := hc
      simp only [Bool.and_eq_true] at hc2
      exact truthyS_ne_none hc2.1
    · rw [if_neg hc]
      cases hfb : fenceBlocks g with
      | nil => exact stripCF_some_ne_none _
      | cons b0 t0 =>
        cases t0 with
        | nil => exact stripCF_some_ne_none _
        | cons b1 t1 => exact stripCF_some_ne_none _

/-- Witness for C2 on a response with no markers and no fences. -/
theorem C2_witness :
    extractScripts (("hello world").toList)
      = ⟨stripCF (some (stripMarkers (("hello world").toList))), none,
          ParseMethod.rawCleaned⟩ :=
  (C2_raw_fallback (("hello world").toList) (by decide)
    (by rw [← fenceBlocksW_eq]; decide)).1

/--
Counterexample to C2 as stated: on a response whose two fenced blocks are
both empty, marker extraction fails and the fence fallback fails to
produce two non-empty scripts, yet the pipeline returns the two empty
fence blocks (method `fences`) instead of the fence-stripped raw response
(`hello`) — so the primary field is an empty string, not the populated
raw response the claim promises. -/
theorem C2_counterexample :
    extractScripts (("hello\n```python\n```\n```python\n```").toList)
      = ⟨some [], some [], ParseMethod.fences⟩
    ∧ stripCF (some (stripMarkers (("hello\n```python\n```\n```python\n```").toList)))
      = some (("hello").toList)
    ∧ some ([] : Str) ≠ some (("hello").toList) := by
  refine ⟨?_, ?_, by simp⟩
  · rw [← extractScriptsW_eq]
    decide
  · rw [← stripCFW_eq, ← stripMarkersW_eq]
    decide

/- ### `ChatInterface.tsx`: the run-config detector and applier -/

/-- The apostrophe and backtick characters, and `$`. -/
def apostC : Char := Char.ofNat 39

def btickC : Char := Char.ofNat 96

/-- Split on `'\n'` alone. -/
def splitNL : Str → List Str
  | [] => [[]]
  | c :: t =>
    if c = '\n' then [] :: splitNL t
    else
      match splitNL t with
      | l :: ls => (c :: l) :: ls
      | [] => [[c]]

/-- Remove one trailing `'\r'`. -/
def stripCR (l : Str) : Str :=
  match l.reverse with
  | c :: r => if c = '\r' then r.reverse else l
  | [] => l

def mapExceptLast (f : Str → Str) : List Str → List Str
  | [] => []
  | [l] => [l]
  | l :: l2 :: ls => f l :: mapExceptLast f (l2 :: ls)

/-- `code.split(/\r?\n/)`: every `'\n'` separates, consuming one `'\r'`
directly before it; a lone `'\r'` is not a separator.  Equivalently:
split on `'\n'`, then remove one trailing `'\r'` from every piece that
was followed by a `'\n'` (all but the last). -/
def splitLines (code : Str) : List Str := mapExceptLast stripCR (splitNL code)

/-- `[A-Z_]` (the first character of the assignment-name group). -/
def isUpperU (c : Char) : Bool := (('A' ≤ c && c ≤ 'Z') : Bool) || c = '_'

/-- `[A-Z0-9_]` (the remaining characters of the assignment-name group). -/
def isNameChar (c : Char) : Bool :=
  (('A' ≤ c && c ≤ 'Z') : Bool) || (('0' ≤ c && c ≤ '9') : Bool) || c = '_'

/-- `\w`, i.e. `[A-Za-z0-9_]`. -/
def isWordChar (c : Char) : Bool :=
  (('A' ≤ c && c ≤ 'Z') : Bool) || (('a' ≤ c && c ≤ 'z') : Bool)
    || (('0' ≤ c && c ≤ '9') : Bool) || c = '_'

/-- JavaScript line terminators relevant here (`.` matches neither). -/
def isLT (c : Char) : Bool := c = '\n' || c = '\r'

def noLT (s : Str) : Bool := s.all (fun c => !isLT c)

/--
`/#\s*-+\s*configuration/i.test(trimmed) || /#\s*configuration/i.test(trimmed)`:
a match starting at some position — `#`, a maximal whitespace run, an
optional maximal dash run followed by a maximal whitespace run, then
`configuration` case-insensitively.  Each greedy run is forced maximal
because the element after it cannot match its class. -/
def hasCfgAt : Str → Bool
  | [] => false
  | c :: t =>
    c = '#' &&
      (let r1 := t.dropWhile jsWS
       let r2 := r1.dropWhile (· = '-')
       (decide (r1 ≠ r2) && ciPre (("configuration").toList) (r2.dropWhile jsWS))
         || ciPre (("configuration").toList) r1)

def containsCfg : Str → Bool
  | [] => false
  | c :: t => hasCfgAt (c :: t) || containsCfg t

/-- `/^def\s+\w+\s*\(/.test(trimmed)`. -/
def isDefLine (t : Str) : Bool :=
  (("def").toList).isPrefixOf t &&
    (let r1 := (t.drop 3).dropWhile jsWS
     decide (r1 ≠ t.drop 3) &&
       (let r2 := r1.dropWhile isWordChar
        decide (r2 ≠ r1) &&
          (match r2.dropWhile jsWS with
           | '(' :: _ => true
           | _ => false)))

/-- `/^if __name__\s*==/.test(trimmed)`. -/
def isMainGuard (t : Str) : Bool :=
  (("if __name__").toList).isPrefixOf t &&
    (("==").toList).isPrefixOf ((t.drop 11).dropWhile jsWS)

/--
`/^([A-Z_][A-Z0-9_]*)\s*=\s*(.+)$/.exec(trimmed)`: the name group is the
maximal run of name characters; both `\s*` are forced maximal because `=`
is not whitespace and, the line being trimmed, the value cannot consist of
whitespace alone; `(.+)$` requires a non-empty remainder free of line
terminators. -/
def parseAssign (t : Str) : Option (Str × Str) :=
  match t with
  | [] => none
  | c :: r =>
    if isUpperU c then
      let name := c :: r.takeWhile isNameChar
      match (r.dropWhile isNameChar).dropWhile jsWS with
      | '=' :: r2 =>
        let v := r2.dropWhile jsWS
        if v ≠ [] ∧ noLT v = true then some (name, v) else none
      | _ => none
    else none

/--
`rawValue.trim().match(/^(['"])(.*)\1/)`: the quote is the first
character; the greedy `(.*)` cannot cross a line terminator, so after
maximal extension it backtracks to the last occurrence of the quote
character before the first line terminator; no such occurrence means no
match. -/
def strValue (v : Str) : Option Str :=
  match v with
  | [] => none
  | q :: r =>
    if q = '"' || q = apostC then
      match lastIdxOf (r.takeWhile (fun c => !isLT c)) q with
      | some k => some ((r.takeWhile (fun c => !isLT c)).take k)
      | none => none
    else none

def containsSub (pat s : Str) : Bool := (idxOf s pat).isSome

/-- Case-insensitive substring test (`pat` given in lower case). -/
def ciContains (pat : Str) : Str → Bool
  | [] => ciPre pat []
  | c :: t => ciPre pat (c :: t) || ciContains pat t

/-- An occurrence of `user` followed by a word boundary (`/user\b/`). -/
def userBdry : Str → Bool
  | [] => false
  | c :: t =>
    ((("user").toList).isPrefixOf (c :: t) &&
      (match (c :: t).drop 4 with
       | [] => true
       | d :: _ => !isWordChar d))
    || userBdry t

def isCredential (ln : Str) : Bool :=
  containsSub (("password").toList) ln || containsSub (("passwd").toList) ln
    || containsSub (("token").toList) ln || containsSub (("secret").toList) ln
    || containsSub (("key").toList) ln

def isIdentity (ln : Str) : Bool :=
  containsSub (("username").toList) ln || containsSub (("user_name").toList) ln
    || userBdry ln || containsSub (("email").toList) ln
    || containsSub (("account").toList) ln

def isUrl (ln : Str) : Bool := containsSub (("url").toList) ln

def isPathLike (ln : Str) : Bool :=
  containsSub (("path").toList) ln || containsSub (("folder").toList) ln
    || containsSub (("directory").toList) ln || containsSub (("download").toList) ln

def isSearchLike (ln : Str) : Bool :=
  containsSub (("hashtag").toList) ln || containsSub (("search").toList) ln
    || containsSub (("query").toList) ln || containsSub (("keyword").toList) ln
    || containsSub (("term").toList) ln

/-- `/your_|example\.com|<|TODO/i.test(dv)`. -/
def looksPlaceholder (dv : Str) : Bool :=
  ciContains (("your_").toList) dv || ciContains (("example.com").toList) dv
    || ciContains (("<").toList) dv || ciContains (("todo").toList) dv

def shouldAskUser (ln dv : Str) : Bool :=
  isCredential ln || isIdentity ln || isSearchLike ln || looksPlaceholder dv
    || ((isUrl ln || isPathLike ln)
        && (looksPlaceholder dv || decide (jsTrim dv = [])))

/-- `RunConfigField`. -/
structure RunConfigField where
  name : Str
  defaultValue : Option Str
deriving DecidableEq

/-- The per-line body of the detector loop once inside the config
section: assignment regex, selector exclusion, string-literal match,
ask-the-user heuristics. -/
def exclName (ln : Str) : Bool :=
  containsSub (("selector").toList) ln || containsSub (("xpath").toList) ln
    || containsSub (("css").toList) ln || containsSub (("locator").toList) ln

def fieldOf (t : Str) : Option RunConfigField :=
  match parseAssign t with
  | none => none
  | some (name, rawValue) =>
    let ln := name.map Char.toLower
    if exclName ln then
      none
    else
      match strValue rawValue with
      | none => none
      | some dv => if shouldAskUser ln dv then some ⟨name, some dv⟩ else none

/-- The detector loop of `extractRunConfigFields`, with its `inConfig`
flag: before the config comment, lines are only tested for the comment;
after it, `def`/main-guard lines break, and matching assignments are
collected. -/
def scanFields : Bool → List Str → List RunConfigField
  | _, [] => []
  | false, l :: ls =>
    if containsCfg (jsTrim l) then scanFields true ls else scanFields false ls
  | true, l :: ls =>
    if isDefLine (jsTrim l) || isMainGuard (jsTrim l) then []
    else
      match fieldOf (jsTrim l) with
      | some f => f :: scanFields true ls
      | none => scanFields true ls

def extractRunConfigFields (code : Str) : List RunConfigField :=
  scanFields false (splitLines code)

/-- The lines after the first configuration comment (all of them when no
line carries one). -/
def afterCfgLines : List Str → List Str
  | [] => []
  | l :: ls => if containsCfg (jsTrim l) then ls else afterCfgLines ls

/-- The spec's header region over a line list: the lines up to (but not
including) the first function definition or main-entry guard. -/
def headerRegion (ls : List Str) : List Str :=
  ls.takeWhile (fun l => !(isDefLine (jsTrim l) || isMainGuard (jsTrim l)))

theorem scanFields_false_eq (ls : List Str) :
    scanFields false ls = scanFields true (afterCfgLines ls) := by
  induction ls with
  | nil => rfl
  | cons l t ih =>
    simp only [scanFields, afterCfgLines]
    by_cases hc : containsCfg (jsTrim l) = true
    · rw [if_pos hc, if_pos hc]
    · rw [if_neg hc, if_neg hc, ih]

theorem scanFields_true_eq (ls : List Str) :
    scanFields true ls
      = (headerRegion ls).filterMap (fun l => fieldOf (jsTrim l)) := by
  induction ls with
  | nil => rfl
  | cons l t ih =>
    simp only [scanFields, headerRegion, List.takeWhile_cons]
    by_cases hs : (isDefLine (jsTrim l) || isMainGuard (jsTrim l)) = true
    · rw [if_pos hs, hs]
      rfl
    · rw [if_neg hs, Bool.eq_false_iff.mpr hs]
      simp only [Bool.not_false, if_pos, List.filterMap_cons]
      cases hfo : fieldOf (jsTrim l) with
      | none =>
        rw [ih]
        rfl
      | some f =>
        rw [ih]
        rfl

/--
C7.  Detector scan region.  The detector's candidate lines are NOT simply
the lines from the start of the script up to the first function
definition or main-entry guard: they are the lines strictly after the
first line carrying a configuration comment, up to the first function
definition or main-entry guard after it; before such a comment no line is
examined as an assignment. -/
theorem C7_header_region (code : Str) :
    extractRunConfigFields code
      = (headerRegion (afterCfgLines (splitLines code))).filterMap
          (fun l => fieldOf (jsTrim l)) := by
  rw [extractRunConfigFields, scanFields_false_eq, scanFields_true_eq]

/--
Counterexample to C7 as stated: a `PASSWORD = "..."` assignment on the
first line of a script is ignored when no configuration comment precedes
it, and examined when one does — so the scanned region is gated on the
comment, not fixed at the start of the script. -/
theorem C7_counterexample :
    extractRunConfigFields (("PASSWORD = \"your_password_here\"").toList) = []
    ∧ extractRunConfigFields
        (("# Configuration\nPASSWORD = \"your_password_here\"").toList)
      = [⟨("PASSWORD").toList, some (("your_password_here").toList)⟩]
    ∧ ([] : List RunConfigField)
      ≠ [⟨("PASSWORD").toList, some (("your_password_here").toList)⟩] := by
  refine ⟨by decide, by decide, by decide⟩

/--
C8.  Scenario C field detection.  With a configuration comment above
them, the header assignments `PASSWORD = "your_password_here"` and
`SEARCH_TERM = ""` are both returned by the detector (flagged for user
input: the first as a credential name, the second as a search-like name),
carrying their observed default values.  The detector attaches no
secret/plain classification: a `RunConfigField` holds only the name and
the default value. -/
theorem C8_field_detection :
    extractRunConfigFields
        (("# Configuration\nPASSWORD = \"your_password_here\"\nSEARCH_TERM = \"\"").toList)
      = [⟨("PASSWORD").toList, some (("your_password_here").toList)⟩,
         ⟨("SEARCH_TERM").toList, some []⟩] := by
  decide

/--
Counterexample to C8 as stated: the same two header assignments yield no
fields at all when no configuration comment precedes them, and the
detector's output type carries no secret/plain classification anywhere —
the claimed classification rule does not exist in the code. -/
theorem C8_counterexample :
    extractRunConfigFields
        (("PASSWORD = \"your_password_here\"\nSEARCH_TERM = \"\"").toList) = []
    ∧ ([] : List RunConfigField)
      ≠ [⟨("PASSWORD").toList, some (("your_password_here").toList)⟩,
         ⟨("SEARCH_TERM").toList, some []⟩] := by
  refine ⟨by decide, by decide⟩

/-- `raw.replace(/\\/g, "\\\\")`: double every backslash. -/
def escB : Str → Str
  | [] => []
  | c :: t => if c = '\\' then '\\' :: '\\' :: escB t else c :: escB t

/-- `.replace(/"/g, '\\"')`: escape every double quote. -/
def escQ : Str → Str
  | [] => []
  | c :: t => if c = '"' then '\\' :: '"' :: escQ t else c :: escQ t

/--
`String.prototype.replace` replacement-string `$`-patterns: `$$` yields
`$`, `$&` the matched text, a backtick-dollar the text before the match,
an apostrophe-dollar the text after it; the pattern has no capture
groups, so `$` followed by anything else is literal. -/
def expandRepl (m pre post : Str) : Str → Str
  | [] => []
  | c :: t =>
    if c = '$' then
      match t with
      | [] => [c]
      | d :: t2 =>
        if d = '$' then '$' :: expandRepl m pre post t2
        else if d = '&' then m ++ expandRepl m pre post t2
        else if d = btickC then pre ++ expandRepl m pre post t2
        else if d = apostC then post ++ expandRepl m pre post t2
        else c :: d :: expandRepl m pre post t2
    else c :: expandRepl m pre post t

/--
A match of ``new RegExp(`^\\s*${name}\\s*=.*$`, "m")`` at the current
position (a line start): both `\s*` are forced maximal because the name's
first character and `=` are not whitespace (note the first `\s*` may
consume newlines, crossing onto later lines); `.*` runs to the next line
terminator, where `$` holds.  Returns the length of the matched text. -/
def matchAt (name s : Str) : Option Nat :=
  let w := s.takeWhile jsWS
  let r := s.dropWhile jsWS
  if name.isPrefixOf r then
    let r2 := r.drop name.length
    let w2 := r2.takeWhile jsWS
    match r2.dropWhile jsWS with
    | '=' :: r4 =>
      some (w.length + name.length + w2.length + 1 + (r4.takeWhile (fun c => !isLT c)).length)
    | _ => none
  else none

/-- First match of the assignment pattern: the earliest line start whose
suffix matches, as `(position, length)`. -/
def findAssignGo (name : Str) : Bool → Nat → Str → Option (Nat × Nat)
  | _, _, [] => none
  | atLS, i, c :: t =>
    if atLS then
      match matchAt name (c :: t) with
      | some len => some (i, len)
      | none => findAssignGo name (c = '\n') (i + 1) t
    else findAssignGo name (c = '\n') (i + 1) t

def findAssign (name s : Str) : Option (Nat × Nat) := findAssignGo name true 0 s

/--
One iteration of the `runConfigFields.forEach` body of
`buildConfiguredRunCode`: resolve the raw value (entered value, else
detected default, else empty; trimmed), skip empty values, escape, and
either replace the first matching assignment line (JavaScript `replace`,
with replacement-string `$`-expansion) or prepend a new assignment. -/
def applyField (vals : Str → Option Str) (code : Str) (f : RunConfigField) : Str :=
  let raw := jsTrim ((vals f.name).getD (f.defaultValue.getD []))
  if raw = [] then code
  else
    let repl := f.name ++ (" = ").toList ++ '"' :: (escQ (escB raw) ++ ['"'])
    match findAssign f.name code with
    | some (p, len) =>
      code.take p
        ++ expandRepl ((code.drop p).take len) (code.take p) (code.drop (p + len)) repl
        ++ code.drop (p + len)
    | none => repl ++ '\n' :: code

def buildConfiguredRunCode (fields : List RunConfigField) (vals : Str → Option Str)
    (code : Str) : Str :=
  fields.foldl (applyField vals) code

/-- The number of lines of `code` that are assignment statements for
`name` (in the detector's trimmed-assignment sense). -/
def countAssign (name : Str) (code : Str) : Nat :=
  ((splitLines code).filter
    (fun l => (parseAssign (jsTrim l)).map Prod.fst == some name)).length

/--
Evaluation of a Python double-quoted string literal fragment that must
end exactly at the end of the line: `\\` and `\"` decode to one character;
any other escape, a bare line terminator, an early closing quote or a
missing one is rejected. -/
def dqGo : Str → Option Str
  | [] => none
  | c :: t =>
    if c = '"' then (if t = [] then some [] else none)
    else if c = '\\' then
      match t with
      | [] => none
      | d :: t2 => if d = '\\' || d = '"' then (dqGo t2).map (d :: ·) else none
    else if isLT c then none else (dqGo t).map (c :: ·)

/-- A syntactically valid assignment name: `[A-Z_][A-Z0-9_]*`. -/
def goodName (name : Str) : Bool :=
  match name with
  | [] => false
  | c :: t => isUpperU c && t.all isNameChar

/-- The scenario scaffolding for the round-trip claims: a configuration
comment line and a detector-shaped assignment line. -/
def cfgStr : Str := ("# Configuration").toList

def assignOf (name X : Str) : Str := name ++ (" = ").toList ++ '"' :: (X ++ ['"'])

def cfgCode (name X : Str) : Str := cfgStr ++ '\n' :: assignOf name X

theorem isUpperU_not_ws {c : Char} (h : isUpperU c = true) : jsWS c = false := by
  cases hw : jsWS c with
  | false => rfl
  | true =>
    exfalso
    simp only [jsWS, Bool.or_eq_true, decide_eq_true_eq, or_assoc] at hw
    rcases hw with h1 | h1 | h1 | h1 | h1 | h1 <;> subst h1 <;> exact absurd h (by decide)

theorem isNameChar_not_ws {c : Char} (h : isNameChar c = true) : jsWS c = false := by
  cases hw : jsWS c with
  | false => rfl
  | true =>
    exfalso
    simp only [jsWS, Bool.or_eq_true, decide_eq_true_eq, or_assoc] at hw
    rcases hw with h1 | h1 | h1 | h1 | h1 | h1 <;> subst h1 <;> exact absurd h (by decide)

theorem isUpperU_ne {c d : Char} (h : isUpperU c = true) (hd : isUpperU d = false) :
    (d == c) = false := by
  cases hb : (d == c) with
  | false => rfl
  | true =>
    exfalso
    have : d = c := by simpa using hb
    subst this
    rw [h] at hd
    exact Bool.noConfusion hd

theorem isNameChar_not_dollar {c : Char} (h : isNameChar c = true) : (c = '$') = False := by
  simp only [eq_iff_iff, iff_false]
  intro he
  subst he
  exact absurd h (by decide)

/-- `takeWhile` across a boundary where the predicate first fails. -/
theorem takeWhile_all_of (p : Char → Bool) (xs : Str) (h : xs.all p = true)
    (y : Char) (z : Str) (hy : p y = false) :
    (xs ++ y :: z).takeWhile p = xs := by
  induction xs with
  | nil => simp [List.takeWhile_cons, hy]
  | cons a t ih =>
    simp only [List.all_cons, Bool.and_eq_true] at h
    simp [List.takeWhile_cons, h.1, ih h.2]

/-- `dropWhile` across a boundary where the predicate first fails. -/
theorem dropWhile_all_of (p : Char → Bool) (xs : Str) (h : xs.all p = true)
    (y : Char) (z : Str) (hy : p y = false) :
    (xs ++ y :: z).dropWhile p = y :: z := by
  induction xs with
  | nil => simp [List.dropWhile_cons, hy]
  | cons a t ih =>
    simp only [List.all_cons, Bool.and_eq_true] at h
    simp [List.dropWhile_cons, h.1, ih h.2]

theorem takeWhile_of_all (p : Char → Bool) (xs : Str) (h : xs.all p = true) :
    xs.takeWhile p = xs := by
  induction xs with
  | nil => rfl
  | cons a t ih =>
    simp only [List.all_cons, Bool.and_eq_true] at h
    simp [List.takeWhile_cons, h.1, ih h.2]

theorem escB_id (s : Str) (h : s.all (fun c => !(c = '\\' : Bool)) = true) : escB s = s := by
  induction s with
  | nil => rfl
  | cons c t ih =>
    simp only [List.all_cons, Bool.and_eq_true, Bool.not_eq_true', decide_eq_false_iff_not] at h
    simp only [escB, if_neg h.1]
    rw [ih (by simpa using h.2)]

theorem escQ_id (s : Str) (h : s.all (fun c => !(c = '"' : Bool)) = true) : escQ s = s := by
  induction s with
  | nil => rfl
  | cons c t ih =>
    simp only [List.all_cons, Bool.and_eq_true, Bool.not_eq_true', decide_eq_false_iff_not] at h
    simp only [escQ, if_neg h.1]
    rw [ih (by simpa using h.2)]

theorem escB_all (p : Char → Bool) (hp : p '\\' = true) (s : Str) (h : s.all p = true) :
    (escB s).all p = true := by
  induction s with
  | nil => rfl
  | cons c t ih =>
    simp only [List.all_cons, Bool.and_eq_true] at h
    simp only [escB]
    split
    · simp only [List.all_cons, Bool.and_eq_true]
      exact ⟨hp, hp, ih h.2⟩
    · simp only [List.all_cons, Bool.and_eq_true]
      exact ⟨h.1, ih h.2⟩

theorem escQ_all (p : Char → Bool) (hp : p '\\' = true) (s : Str) (h : s.all p = true) :
    (escQ s).all p = true := by
  induction s with
  | nil => rfl
  | cons c t ih =>
    simp only [List.all_cons, Bool.and_eq_true] at h
    simp only [escQ]
    split
    · next hc =>
      subst hc
      simp only [List.all_cons, Bool.and_eq_true]
      exact ⟨hp, h.1, ih h.2⟩
    · simp only [List.all_cons, Bool.and_eq_true]
      exact ⟨h.1, ih h.2⟩

/-- A `$`-free replacement string passes through `replace` verbatim. -/
theorem expandRepl_id (m pre post : Str) :
    ∀ r : Str, r.all (fun c => !(c = '$' : Bool)) = true → expandRepl m pre post r = r := by
  intro r
  induction r with
  | nil => intro h; rfl
  | cons c t ih =>
    intro h
    simp only [List.all_cons, Bool.and_eq_true, Bool.not_eq_true', decide_eq_false_iff_not] at h
    rw [expandRepl.eq_def]
    simp only []
    rw [if_neg h.1, ih (by simpa using h.2)]

theorem lastIdxOf_append_last (X : Str) (q : Char)
    (h : X.all (fun c => !(c = q : Bool)) = true) :
    lastIdxOf (X ++ [q]) q = some X.length := by
  induction X with
  | nil => simp [lastIdxOf]
  | cons c t ih =>
    simp only [List.all_cons, Bool.and_eq_true] at h
    simp only [List.cons_append, lastIdxOf]
    rw [List.append_eq, ih h.2]
    simp


theorem dqGo_esc (d : Char) (rest : Str) (hd : (d = '\\' ∨ d = '"')) :
    dqGo ('\\' :: d :: rest) = (dqGo rest).map (d :: ·) := by
  rw [dqGo.eq_def]
  simp only []
  rw [if_neg (by decide : ¬(('\\' : Char) = '"')), if_pos trivial]
  rcases hd with h | h <;> simp [h]

theorem dqGo_chr (c : Char) (rest : Str) (h1 : ¬(c = '"')) (h2 : ¬(c = '\\'))
    (h3 : isLT c = false) :
    dqGo (c :: rest) = (dqGo rest).map (c :: ·) := by
  rw [dqGo.eq_def]
  simp only []
  rw [if_neg h1, if_neg h2, if_neg (by simp [h3])]

/-- Decoding an escaped value: quote-escaping after backslash-doubling is
inverted exactly by the double-quoted-literal evaluation. -/
theorem dq_round (V : Str) (h : noLT V = true) :
    dqGo (escQ (escB V) ++ ['"']) = some V := by
  induction V with
  | nil => rfl
  | cons c t ih =>
    simp only [noLT, List.all_cons, Bool.and_eq_true] at h
    have hlt : isLT c = false := by
      have := h.1
      simpa using this
    have iht := ih h.2
    by_cases hb : c = '\\'
    · subst hb
      have he : escQ (escB ('\\' :: t)) = '\\' :: '\\' :: escQ (escB t) := by
        simp only [escB, if_pos rfl, escQ, if_neg (by decide : ¬(('\\' : Char) = '"'))]
      rw [he, List.cons_append, List.cons_append, dqGo_esc '\\' _ (Or.inl rfl), iht]
      rfl
    · by_cases hq : c = '"'
      · subst hq
        have he : escQ (escB ('"' :: t)) = '\\' :: '"' :: escQ (escB t) := by
          simp only [escB, if_neg (by decide : ¬(('"' : Char) = '\\')), escQ, if_pos rfl]
          simp
        rw [he, List.cons_append, List.cons_append, dqGo_esc '"' _ (Or.inr rfl), iht]
        rfl
      · have he : escQ (escB (c :: t)) = c :: escQ (escB t) := by
          simp only [escB, if_neg hb, escQ, if_neg hq]
        rw [he, List.cons_append, dqGo_chr c _ hq hb hlt, iht]
        rfl

theorem splitNL_no_nl (y : Str) (hy : y.all (fun c => !(c = '\n' : Bool)) = true) :
    splitNL y = [y] := by
  induction y with
  | nil => rfl
  | cons c t ih =>
    simp only [List.all_cons, Bool.and_eq_true, Bool.not_eq_true', decide_eq_false_iff_not] at hy
    simp only [splitNL, if_neg hy.1]
    rw [ih (by simpa using hy.2)]

theorem splitNL_break (x : Str) (hx : x.all (fun c => !(c = '\n' : Bool)) = true) (z : Str) :
    splitNL (x ++ '\n' :: z) = x :: splitNL z := by
  induction x with
  | nil => simp [List.nil_append, splitNL]
  | cons c t ih =>
    simp only [List.all_cons, Bool.and_eq_true, Bool.not_eq_true', decide_eq_false_iff_not] at hx
    simp only [List.cons_append, splitNL, if_neg hx.1]
    rw [List.append_eq, ih (by simpa using hx.2)]

theorem stripCR_id (l : Str) (h : l.all (fun c => !(c = '\r' : Bool)) = true) :
    stripCR l = l := by
  cases hr : l.reverse with
  | nil => simp only [stripCR, hr]
  | cons c r =>
    have hc : ¬(c = '\r') := by
      have hm : c ∈ l := by
        rw [← List.mem_reverse, hr]
        exact List.mem_cons_self _ _
      have := List.all_eq_true.mp h c hm
      simpa using this
    simp only [stripCR, hr, if_neg hc]

theorem noLT_split (x : Str) (h : noLT x = true) :
    x.all (fun c => !(c = '\n' : Bool)) = true ∧ x.all (fun c => !(c = '\r' : Bool)) = true := by
  simp only [noLT, List.all_eq_true] at h ⊢
  constructor <;> intro c hc <;> have hx := h c hc <;>
    simp only [isLT, Bool.not_eq_true', Bool.or_eq_false_iff, decide_eq_false_iff_not] at hx <;>
    simp [hx.1, hx.2]

/-- Splitting a two-line string whose first line is clean. -/
theorem splitLines_two (x y : Str) (hx : noLT x = true)
    (hy : y.all (fun c => !(c = '\n' : Bool)) = true) :
    splitLines (x ++ '\n' :: y) = [x, y] := by
  rw [splitLines, splitNL_break x (noLT_split x hx).1, splitNL_no_nl y hy]
  simp only [mapExceptLast]
  rw [stripCR_id x (noLT_split x hx).2]

theorem jsTrimL_cons (c : Char) (t : Str) (hc : jsWS c = false) :
    jsTrimL (c :: t) = c :: t := by
  simp [jsTrimL, List.dropWhile_cons, hc]

theorem jsTrimR_append_one (l : Str) (c : Char) (hc : jsWS c = false) :
    jsTrimR (l ++ [c]) = l ++ [c] := by
  simp [jsTrimR, List.dropWhile_cons, hc]

/-- The assignment line is its own trim: it starts with the name's first
character and ends with a quote. -/
theorem jsTrim_assignOf (name X : Str) (hn : goodName name = true) :
    jsTrim (assignOf name X) = assignOf name X := by
  cases name with
  | nil => exact absurd hn (by decide)
  | cons c nt =>
    simp only [goodName, Bool.and_eq_true] at hn
    have hsh : assignOf (c :: nt) X = (c :: (nt ++ (" = ").toList ++ '"' :: X)) ++ ['"'] := by
      simp only [assignOf, List.cons_append, List.append_assoc]
    rw [jsTrim, hsh, jsTrimR_append_one _ _ (by decide)]
    rw [show (c :: (nt ++ (" = ").toList ++ '"' :: X)) ++ ['"']
        = c :: ((nt ++ (" = ").toList ++ '"' :: X) ++ ['"']) from rfl]
    exact jsTrimL_cons _ _ (isUpperU_not_ws hn.1)

/-- The assignment regex on a detector-shaped line. -/
theorem parseAssign_assignOf (name X : Str) (hn : goodName name = true)
    (hX : noLT X = true) :
    parseAssign (assignOf name X) = some (name, '"' :: (X ++ ['"'])) := by
  cases name with
  | nil => exact absurd hn (by decide)
  | cons c nt =>
    simp only [goodName, Bool.and_eq_true] at hn
    have hsh : assignOf (c :: nt) X
        = c :: (nt ++ ' ' :: '=' :: ' ' :: '"' :: (X ++ ['"'])) := by
      simp only [assignOf, List.cons_append, List.append_assoc]
      rfl
    rw [hsh, parseAssign.eq_def]
    simp only []
    rw [if_pos hn.1]
    rw [takeWhile_all_of isNameChar nt hn.2 ' ' _ (by decide)]
    rw [dropWhile_all_of isNameChar nt hn.2 ' ' _ (by decide)]
    rw [show List.dropWhile jsWS (' ' :: '=' :: ' ' :: '"' :: (X ++ ['"']))
        = '=' :: ' ' :: '"' :: (X ++ ['"']) from by
      simp [List.dropWhile_cons, (by decide : jsWS ' ' = true),
        (by decide : jsWS '=' = false)]]
    simp only []
    rw [show List.dropWhile jsWS (' ' :: '"' :: (X ++ ['"'])) = '"' :: (X ++ ['"']) from by
      simp [List.dropWhile_cons, (by decide : jsWS ' ' = true),
        (by decide : jsWS '"' = false)]]
    rw [if_pos]
    constructor
    · simp
    · simp only [noLT, List.all_cons, List.all_append, Bool.and_eq_true]
      refine ⟨by decide, ?_, by decide⟩
      simpa [noLT] using hX

/-- The string-literal regex on a double-quoted value whose body contains
no quote: the greedy group backtracks to the final quote. -/
theorem strValue_quoted (X : Str) (hX : noLT X = true)
    (hq : X.all (fun c => !(c = '"' : Bool)) = true) :
    strValue ('"' :: (X ++ ['"'])) = some X := by
  rw [strValue.eq_def]
  simp only []
  rw [if_pos (by simp)]
  rw [takeWhile_of_all _ _ (by
    simp only [List.all_append, List.all_cons, Bool.and_eq_true]
    refine ⟨by simpa [noLT] using hX, by decide, rfl⟩)]
  rw [lastIdxOf_append_last X '"' hq]
  simp [List.take_left]

/-- The full per-line detector body on a detector-shaped line. -/
theorem fieldOf_assignOf (name X : Str) (hn : goodName name = true)
    (hX : noLT X = true) (hq : X.all (fun c => !(c = '"' : Bool)) = true)
    (hex : exclName (name.map Char.toLower) = false)
    (hask : shouldAskUser (name.map Char.toLower) X = true) :
    fieldOf (assignOf name X) = some ⟨name, some X⟩ := by
  rw [fieldOf.eq_def, parseAssign_assignOf name X hn hX]
  simp only []
  rw [if_neg (by rw [hex]; exact Bool.noConfusion)]
  rw [strValue_quoted X hX hq]
  simp only []
  rw [if_pos hask]

theorem isUpperU_not_lt {c : Char} (h : isUpperU c = true) : isLT c = false := by
  cases hl : isLT c with
  | false => rfl
  | true =>
    exfalso
    simp only [isLT, Bool.or_eq_true, decide_eq_true_eq] at hl
    rcases hl with h1 | h1 <;> subst h1 <;> exact absurd h (by decide)

theorem isNameChar_not_lt {c : Char} (h : isNameChar c = true) : isLT c = false := by
  cases hl : isLT c with
  | false => rfl
  | true =>
    exfalso
    simp only [isLT, Bool.or_eq_true, decide_eq_true_eq] at hl
    rcases hl with h1 | h1 <;> subst h1 <;> exact absurd h (by decide)

theorem all_not_lt_of_name (nt : Str) (h : nt.all isNameChar = true) :
    (nt.all fun c => !isLT c) = true := by
  rw [List.all_eq_true] at h ⊢
  intro x hx
  simp [isNameChar_not_lt (h x hx)]

theorem noLT_assignOf (name X : Str) (hn : goodName name = true) (hX : noLT X = true) :
    noLT (assignOf name X) = true := by
  cases name with
  | nil => exact absurd hn (by decide)
  | cons c nt =>
    simp only [goodName, Bool.and_eq_true] at hn
    have hXa : (X.all fun c => !isLT c) = true := hX
    simp [noLT, assignOf, List.all_append, List.all_cons,
      isUpperU_not_lt hn.1, all_not_lt_of_name nt hn.2, hXa,
      (by decide : isLT ' ' = false), (by decide : isLT '=' = false),
      (by decide : isLT '"' = false)]

/-- The assignment line is neither a function definition nor the main
guard: its first character is upper case or an underscore. -/
theorem stop_false_assignOf (name X : Str) (hn : goodName name = true) :
    isDefLine (assignOf name X) = false ∧ isMainGuard (assignOf name X) = false := by
  cases name with
  | nil => exact absurd hn (by decide)
  | cons c nt =>
    simp only [goodName, Bool.and_eq_true] at hn
    have hsh : assignOf (c :: nt) X
        = c :: (nt ++ ' ' :: '=' :: ' ' :: '"' :: (X ++ ['"'])) := by
      simp only [assignOf, List.cons_append, List.append_assoc]
      rfl
    constructor
    · rw [isDefLine, hsh]
      rw [show (("def").toList) = 'd' :: ('e' :: 'f' :: []) from rfl, isPre_cons]
      rw [isUpperU_ne hn.1 (by decide)]
      rfl
    · rw [isMainGuard, hsh]
      rw [show (("if __name__").toList)
          = 'i' :: (('f' :: ' ' :: '_' :: '_' :: 'n' :: 'a' :: 'm' :: 'e' :: '_' :: '_' :: [])) from rfl,
        isPre_cons]
      rw [isUpperU_ne hn.1 (by decide)]
      rfl

/-- Detection on the two-line scenario code. -/
theorem extract_cfgCode (name X : Str) (hn : goodName name = true)
    (hX : noLT X = true) (hq : X.all (fun c => !(c = '"' : Bool)) = true)
    (hex : exclName (name.map Char.toLower) = false)
    (hask : shouldAskUser (name.map Char.toLower) X = true) :
    extractRunConfigFields (cfgCode name X) = [⟨name, some X⟩] := by
  rw [extractRunConfigFields, cfgCode,
    splitLines_two _ _ (by decide) (noLT_split _ (noLT_assignOf name X hn hX)).1]
  simp only [scanFields]
  rw [if_pos (by decide : containsCfg (jsTrim cfgStr) = true)]
  simp only [scanFields, jsTrim_assignOf name X hn]
  rw [if_neg (by
    rw [(stop_false_assignOf name X hn).1, (stop_false_assignOf name X hn).2]
    simp)]
  rw [fieldOf_assignOf name X hn hX hq hex hask]

/-- Exactly one line of the scenario code assigns `name`. -/
theorem countAssign_cfgCode (name X : Str) (hn : goodName name = true)
    (hX : noLT X = true) :
    countAssign name (cfgCode name X) = 1 := by
  rw [countAssign, cfgCode,
    splitLines_two _ _ (by decide) (noLT_split _ (noLT_assignOf name X hn hX)).1]
  have h1 : parseAssign (jsTrim cfgStr) = none := by decide
  rw [List.filter_cons, List.filter_cons, List.filter_nil]
  rw [if_neg (by simp [h1])]
  rw [if_pos (by
    rw [jsTrim_assignOf name X hn, parseAssign_assignOf name X hn hX]
    simp)]
  rfl


/-- The assignment pattern matches the whole scenario assignment line. -/
theorem matchAt_assignOf (name X : Str) (hn : goodName name = true)
    (hX : noLT X = true) :
    matchAt name (assignOf name X) = some (assignOf name X).length := by
  cases name with
  | nil => exact absurd hn (by decide)
  | cons c nt =>
    simp only [goodName, Bool.and_eq_true] at hn
    have hrest : assignOf (c :: nt) X
        = (c :: nt) ++ (' ' :: '=' :: ' ' :: '"' :: (X ++ ['"'])) := by
      simp only [assignOf, List.cons_append, List.append_assoc]
      rfl
    have hcons : assignOf (c :: nt) X
        = c :: (nt ++ (' ' :: '=' :: ' ' :: '"' :: (X ++ ['"']))) := by
      rw [hrest]
      rfl
    have hA : List.takeWhile jsWS (assignOf (c :: nt) X) = [] := by
      rw [hcons, List.takeWhile_cons, if_neg (by simp [isUpperU_not_ws hn.1])]
    have hB : List.dropWhile jsWS (assignOf (c :: nt) X) = assignOf (c :: nt) X := by
      rw [hcons, List.dropWhile_cons, if_neg (by simp [isUpperU_not_ws hn.1])]
    have hpre : (c :: nt).isPrefixOf (assignOf (c :: nt) X) = true := by
      rw [hrest]
      exact isPrefixOf_append_self _ _
    have hC : (assignOf (c :: nt) X).drop (c :: nt).length
        = ' ' :: '=' :: ' ' :: '"' :: (X ++ ['"']) := by
      rw [hrest, List.drop_left]
    have hD : List.takeWhile jsWS (' ' :: '=' :: ' ' :: '"' :: (X ++ ['"'])) = [' '] := by
      simp [List.takeWhile_cons, (by decide : jsWS ' ' = true),
        (by decide : jsWS '=' = false)]
    have hE : List.dropWhile jsWS (' ' :: '=' :: ' ' :: '"' :: (X ++ ['"']))
        = '=' :: (' ' :: '"' :: (X ++ ['"'])) := by
      simp [List.dropWhile_cons, (by decide : jsWS ' ' = true),
        (by decide : jsWS '=' = false)]
    have hF : List.takeWhile (fun ch => !isLT ch) (' ' :: '"' :: (X ++ ['"']))
        = ' ' :: '"' :: (X ++ ['"']) := by
      apply takeWhile_of_all
      simp only [List.all_cons, List.all_append, Bool.and_eq_true]
      exact ⟨by decide, by decide, (by exact hX : (X.all fun x => !isLT x) = true), by decide⟩
    simp only [matchAt, hA, hB, hpre, hC, hD, hE, hF, if_true]
    rw [hrest]
    simp only [Option.some.injEq, List.length_nil, List.length_cons, List.length_append,
      List.length_singleton]
    omega

/-- The assignment pattern cannot match at the configuration line: that
line starts with a hash, which is neither whitespace nor a name head. -/
theorem matchAt_cfg_fail (name : Str) (hn : goodName name = true) (rest : Str) :
    matchAt name (cfgStr ++ rest) = none := by
  cases name with
  | nil => exact absurd hn (by decide)
  | cons c nt =>
    simp only [goodName, Bool.and_eq_true] at hn
    have hcp : (c == '#') = false := by
      cases hb : (c == '#') with
      | false => rfl
      | true =>
        exfalso
        have hc : c = '#' := by simpa using hb
        subst hc
        exact absurd hn.1 (by decide)
    have hsh : cfgStr ++ rest = '#' :: (((" Configuration").toList) ++ rest) := rfl
    have hB : List.dropWhile jsWS (cfgStr ++ rest) = '#' :: (((" Configuration").toList) ++ rest) := by
      rw [hsh, List.dropWhile_cons, if_neg (by decide)]
    have hpre : (c :: nt).isPrefixOf ('#' :: (((" Configuration").toList) ++ rest)) = false := by
      rw [isPre_cons, hcp]
      rfl
    simp only [matchAt, hB, hpre]
    rfl

/-- Walking a clean line with the line-start flag down never consults the
pattern; the flag rises again just after the newline. -/
theorem findAssignGo_false_line (name x : Str) (hx : x.all (fun c => !(c = '\n' : Bool)) = true) :
    ∀ i z, findAssignGo name false i (x ++ '\n' :: z)
      = findAssignGo name true (i + x.length + 1) z := by
  induction x with
  | nil =>
    intro i z
    rw [List.nil_append, findAssignGo.eq_def]
    simp only []
    rw [if_neg (by simp)]
    simp
  | cons c t ih =>
    intro i z
    simp only [List.all_cons, Bool.and_eq_true, Bool.not_eq_true', decide_eq_false_iff_not] at hx
    rw [List.cons_append, findAssignGo.eq_def]
    simp only []
    rw [if_neg (by simp)]
    rw [show (decide (c = '\n')) = false from by simp [hx.1]]
    rw [ih (by simpa using hx.2) (i + 1) z]
    rw [show i + (c :: t).length + 1 = i + 1 + t.length + 1 from by
      simp only [List.length_cons]
      omega]

/-- Skipping a whole clean line at which the pattern fails. -/
theorem findAssignGo_skip (name x : Str) (hx : x.all (fun c => !(c = '\n' : Bool)) = true)
    (z : Str) (hfail : matchAt name (x ++ '\n' :: z) = none) : ∀ i,
    findAssignGo name true i (x ++ '\n' :: z)
      = findAssignGo name true (i + x.length + 1) z := by
  intro i
  cases x with
  | nil =>
    simp only [List.nil_append] at hfail ⊢
    rw [findAssignGo.eq_def]
    simp only []
    rw [if_pos trivial, hfail]
    simp
  | cons c t =>
    simp only [List.all_cons, Bool.and_eq_true, Bool.not_eq_true', decide_eq_false_iff_not] at hx
    simp only [List.cons_append] at hfail ⊢
    rw [findAssignGo.eq_def]
    simp only []
    rw [if_pos trivial, hfail]
    simp only []
    rw [show (decide (c = '\n')) = false from by simp [hx.1]]
    rw [findAssignGo_false_line name t (by simpa using hx.2) (i + 1) z]
    rw [show i + (c :: t).length + 1 = i + 1 + t.length + 1 from by
      simp only [List.length_cons]
      omega]

/-- The first (and only) match of the assignment pattern in the scenario
code sits exactly at the assignment line. -/
theorem findAssign_cfgCode (name X : Str) (hn : goodName name = true)
    (hX : noLT X = true) :
    findAssign name (cfgCode name X)
      = some (cfgStr.length + 1, (assignOf name X).length) := by
  rw [findAssign, cfgCode]
  rw [findAssignGo_skip name cfgStr (by decide) (assignOf name X)
    (matchAt_cfg_fail name hn ('\n' :: assignOf name X)) 0]
  cases hA : assignOf name X with
  | nil =>
    exfalso
    cases name with
    | nil => exact absurd hn (by decide)
    | cons c nt => simp [assignOf] at hA
  | cons a rest =>
    rw [findAssignGo.eq_def]
    simp only []
    rw [if_pos trivial]
    rw [← hA, matchAt_assignOf name X hn hX]
    simp

/-- One `forEach` iteration of the applier on the scenario code: the
assignment line is rewritten in place with the escaped entered value. -/
theorem applyField_cfgCode (name X V : Str) (hn : goodName name = true)
    (hX : noLT X = true)
    (hV1 : jsTrim V = V) (hV2 : V ≠ []) (hV6 : V.all (fun c => !(c = '$' : Bool)) = true)
    (vals : Str → Option Str) (hv : vals name = some V) :
    applyField vals (cfgCode name X) ⟨name, some X⟩ = cfgCode name (escQ (escB V)) := by
  have hnameD : (name.all fun ch => !(ch = '$' : Bool)) = true := by
    cases name with
    | nil => rfl
    | cons c nt =>
      simp only [goodName, Bool.and_eq_true] at hn
      rw [List.all_eq_true]
      intro y hy
      simp only [Bool.not_eq_true', decide_eq_false_iff_not]
      intro he
      subst he
      rcases List.mem_cons.mp hy with h | h
      · rw [← h] at hn
        exact absurd hn.1 (by decide)
      · exact absurd (List.all_eq_true.mp hn.2 _ h) (by decide)
  have hescD : ((escQ (escB V)).all fun ch => !(ch = '$' : Bool)) = true :=
    escQ_all _ (by decide) _ (escB_all _ (by decide) _ hV6)
  simp only [applyField, hv, Option.getD_some, hV1]
  rw [if_neg hV2]
  rw [findAssign_cfgCode name X hn hX]
  simp only []
  rw [show cfgCode name X = (cfgStr ++ ['\n']) ++ assignOf name X from by
    simp [cfgCode, List.append_assoc]]
  rw [show cfgStr.length + 1 = (cfgStr ++ ['\n']).length from by simp]
  rw [List.take_left, List.drop_left]
  rw [List.drop_eq_nil_of_le (by simp; omega), List.take_of_length_le (by simp)]
  rw [expandRepl_id _ _ _ _ (by
    simp only [List.all_append, List.all_cons, Bool.and_eq_true]
    exact ⟨⟨hnameD, by decide⟩, by decide, hescD, by decide⟩)]
  simp [cfgCode, assignOf, List.append_assoc]

/--
C3.  Config round-trip on the scenario code (a configuration comment
followed by one detected assignment): applying a non-empty value `V` free
of quotes, backslashes, dollar signs and line breaks rewrites the single
assignment in place, and re-running the detector yields the same field
with observed value `V` while the assignment count for the name stays
exactly one — PROVIDED the new value still passes the ask-the-user
heuristics (`hask2`); a URL field whose placeholder is replaced by a real
value fails that proviso and vanishes from re-detection (see the
counterexample). -/
theorem C3_config_round_trip
    (name dv V : Str)
    (hn : goodName name = true)
    (hdv1 : noLT dv = true) (hdv2 : dv.all (fun c => !(c = '"' : Bool)) = true)
    (hex : exclName (name.map Char.toLower) = false)
    (hask1 : shouldAskUser (name.map Char.toLower) dv = true)
    (hV1 : jsTrim V = V) (hV2 : V ≠ []) (hV3 : noLT V = true)
    (hV4 : V.all (fun c => !(c = '"' : Bool)) = true)
    (hV5 : V.all (fun c => !(c = '\\' : Bool)) = true)
    (hV6 : V.all (fun c => !(c = '$' : Bool)) = true)
    (hask2 : shouldAskUser (name.map Char.toLower) V = true)
    (vals : Str → Option Str) (hv : vals name = some V) :
    extractRunConfigFields (cfgCode name dv) = [⟨name, some dv⟩]
    ∧ buildConfiguredRunCode [⟨name, some dv⟩] vals (cfgCode name dv) = cfgCode name V
    ∧ extractRunConfigFields (cfgCode name V) = [⟨name, some V⟩]
    ∧ countAssign name (cfgCode name dv) = 1
    ∧ countAssign name (cfgCode name V) = 1 := by
  have hesc : escQ (escB V) = V := by rw [escB_id V hV5, escQ_id V hV4]
  refine ⟨extract_cfgCode name dv hn hdv1 hdv2 hex hask1, ?_,
    extract_cfgCode name V hn hV3 hV4 hex hask2,
    countAssign_cfgCode name dv hn hdv1, countAssign_cfgCode name V hn hV3⟩
  rw [buildConfiguredRunCode]
  simp only [List.foldl]
  rw [applyField_cfgCode name dv V hn hdv1 hV1 hV2 hV6 vals hv, hesc]

/-- Witness for C3: a password field replaced by a real password. -/
theorem C3_witness :
    buildConfiguredRunCode [⟨("PASSWORD").toList, some (("your_password_here").toList)⟩]
        (fun n => if n = ("PASSWORD").toList then some (("hunter2").toList) else none)
        (cfgCode (("PASSWORD").toList) (("your_password_here").toList))
      = cfgCode (("PASSWORD").toList) (("hunter2").toList)
    ∧ extractRunConfigFields (cfgCode (("PASSWORD").toList) (("hunter2").toList))
      = [⟨("PASSWORD").toList, some (("hunter2").toList)⟩] :=
  ⟨(C3_config_round_trip (("PASSWORD").toList) (("your_password_here").toList)
      (("hunter2").toList) (by decide) (by decide) (by decide) (by decide) (by decide)
      (by decide) (by decide) (by decide) (by decide) (by decide) (by decide) (by decide)
      (fun n => if n = ("PASSWORD").toList then some (("hunter2").toList) else none)
      (by decide)).2.1,
   (C3_config_round_trip (("PASSWORD").toList) (("your_password_here").toList)
      (("hunter2").toList) (by decide) (by decide) (by decide) (by decide) (by decide)
      (by decide) (by decide) (by decide) (by decide) (by decide) (by decide) (by decide)
      (fun n => if n = ("PASSWORD").toList then some (("hunter2").toList) else none)
      (by decide)).2.2.1⟩

/--
Counterexample to C3 as stated: a URL field detected through its
placeholder value (`your_site.com`) disappears from re-detection once the
real value is applied — the re-run detector returns no field at all, not
the same field with the new value. -/
theorem C3_counterexample :
    extractRunConfigFields (cfgCode (("TARGET_URL").toList) (("your_site.com").toList))
      = [⟨("TARGET_URL").toList, some (("your_site.com").toList)⟩]
    ∧ buildConfiguredRunCode [⟨("TARGET_URL").toList, some (("your_site.com").toList)⟩]
        (fun n => if n = ("TARGET_URL").toList then some (("https://site.org").toList) else none)
        (cfgCode (("TARGET_URL").toList) (("your_site.com").toList))
      = cfgCode (("TARGET_URL").toList) (("https://site.org").toList)
    ∧ extractRunConfigFields (cfgCode (("TARGET_URL").toList) (("https://site.org").toList)) = []
    ∧ ([] : List RunConfigField)
      ≠ [⟨("TARGET_URL").toList, some (("https://site.org").toList)⟩] := by
  refine ⟨by decide, by decide, by decide, by decide⟩

/--
C4.  Escaping safety of the applier on the scenario code: for every
non-empty single-line value `V` free of `$` (it MAY contain double quotes
and backslashes), the rewritten assignment carries the escaped literal
body `escQ (escB V)` — backslashes doubled first, then quotes escaped —
and evaluating that double-quoted literal returns exactly `V`: no
premature string termination and no invalid escape.  The `$`-freedom
proviso is necessary: JavaScript `replace` expands `$`-patterns in the
replacement string (see the counterexample). -/
theorem C4_escaping (name X V : Str)
    (hn : goodName name = true) (hX : noLT X = true)
    (hV1 : jsTrim V = V) (hV2 : V ≠ []) (hV3 : noLT V = true)
    (hV6 : V.all (fun c => !(c = '$' : Bool)) = true)
    (vals : Str → Option Str) (hv : vals name = some V) :
    buildConfiguredRunCode [⟨name, some X⟩] vals (cfgCode name X)
      = cfgCode name (escQ (escB V))
    ∧ dqGo (escQ (escB V) ++ ['"']) = some V := by
  refine ⟨?_, dq_round V hV3⟩
  rw [buildConfiguredRunCode]
  simp only [List.foldl]
  exact applyField_cfgCode name X V hn hX hV1 hV2 hV6 vals hv

/-- Witness for C4 at the spec's own example value `pass"word\x`. -/
theorem C4_witness :
    buildConfiguredRunCode [⟨("PASSWORD").toList, some (("old").toList)⟩]
        (fun n => if n = ("PASSWORD").toList then some (("pass\"word\\x").toList) else none)
        (cfgCode (("PASSWORD").toList) (("old").toList))
      = cfgCode (("PASSWORD").toList) (escQ (escB (("pass\"word\\x").toList)))
    ∧ dqGo (escQ (escB (("pass\"word\\x").toList)) ++ ['"'])
      = some (("pass\"word\\x").toList) :=
  C4_escaping (("PASSWORD").toList) (("old").toList) (("pass\"word\\x").toList)
    (by decide) (by decide) (by decide) (by decide) (by decide) (by decide)
    (fun n => if n = ("PASSWORD").toList then some (("pass\"word\\x").toList) else none)
    (by decide)

/--
Counterexample to C4 as stated: a value containing `$&` is corrupted by
replacement-string expansion — the matched assignment text is spliced
into the value, the resulting line is not a valid double-quoted literal
(the string terminates prematurely), and the stored text differs from
the intended assignment. -/
theorem C4_counterexample :
    buildConfiguredRunCode [⟨("X").toList, some (("old").toList)⟩]
        (fun _ => some (("a$&b").toList)) (("X = \"old\"").toList)
      = ("X = \"aX = \"old\"b\"").toList
    ∧ dqGo (("aX = \"old\"b\"").toList) = none
    ∧ ("X = \"aX = \"old\"b\"").toList ≠ ("X = \"a$&b\"").toList := by
  refine ⟨by decide, by decide, by decide⟩
